import Mathlib

/-!
Verification of the postfix segment tree library.

The Rust sources are shallowly embedded: machine integers (`usize`) become
`Nat` (all arithmetic in the source is guarded by `MAX_LEN = usize::MAX / 2`,
so no wrap-around is observable and `Nat` is faithful), the node buffer
(`Vec<T>`) becomes a `List M` over an additive monoid `M` (the element type's
`Default` is the additive identity and `AddAssign` is `+`, accumulating left
before right exactly as the code does), and each loop becomes a fuel-indexed
structural recursion whose fuel provably dominates the loop's iteration count
(so every definition evaluates by kernel reduction).  `assert!` preconditions
of public entry points appear as hypotheses of the theorems;
`debug_assert!`s do not affect release semantics and are modelled separately
where a claim speaks about them.
-/

/-- Fueled core of `usize::count_ones` (population count), recursing on the
binary representation; fuel `n` suffices for argument `n`. -/
def count_ones_fuel : Nat → Nat → Nat
  | 0, _ => 0
  | fuel+1, n => if n = 0 then 0 else count_ones_fuel fuel (n / 2) + n % 2

/-- `usize::count_ones`: the number of set bits. -/
def count_ones (n : Nat) : Nat := count_ones_fuel n n

/-- Fueled core of `usize::trailing_ones`. -/
def trailing_ones_fuel : Nat → Nat → Nat
  | 0, _ => 0
  | fuel+1, n => if n % 2 = 1 then trailing_ones_fuel fuel (n / 2) + 1 else 0

/-- `usize::trailing_ones`: the number of trailing one bits. -/
def trailing_ones (n : Nat) : Nat := trailing_ones_fuel n n

/-- Fueled core of `usize::trailing_zeros` (on a nonzero argument; the
sources only call it on nonzero values). -/
def trailing_zeros_fuel : Nat → Nat → Nat
  | 0, _ => 0
  | fuel+1, n => if n = 0 then 0 else if n % 2 = 1 then 0 else trailing_zeros_fuel fuel (n / 2) + 1

/-- `usize::trailing_zeros` (on nonzero arguments). -/
def trailing_zeros (n : Nat) : Nat := trailing_zeros_fuel n n

/-- Fueled core of `usize::ilog2` (on a nonzero argument; the sources only
call it on nonzero values). -/
def ilog2_fuel : Nat → Nat → Nat
  | 0, _ => 0
  | fuel+1, n => if 2 ≤ n then ilog2_fuel fuel (n / 2) + 1 else 0

/-- `usize::ilog2`: the floor binary logarithm (on nonzero arguments). -/
def ilog2 (n : Nat) : Nat := ilog2_fuel n n

theorem count_ones_fuel_congr : ∀ f₁ f₂ n, n ≤ f₁ → n ≤ f₂ →
    count_ones_fuel f₁ n = count_ones_fuel f₂ n := by
  intro f₁
  induction f₁ with
  | zero =>
    intro f₂ n h1 _
    interval_cases n
    cases f₂ <;> simp [count_ones_fuel]
  | succ f ih =>
    intro f₂ n h1 h2
    match f₂, n with
    | 0, n =>
      interval_cases n
      simp [count_ones_fuel]
    | g+1, 0 => simp [count_ones_fuel]
    | g+1, n+1 =>
      simp only [count_ones_fuel, if_neg (Nat.succ_ne_zero n)]
      have hd : (n+1) / 2 ≤ f := Nat.le_of_lt_succ (Nat.lt_of_lt_of_le (Nat.div_lt_self (Nat.succ_pos n) one_lt_two) h1)
      have hd2 : (n+1) / 2 ≤ g := Nat.le_of_lt_succ (Nat.lt_of_lt_of_le (Nat.div_lt_self (Nat.succ_pos n) one_lt_two) h2)
      rw [ih g ((n+1)/2) hd hd2]

theorem count_ones_eq (n : Nat) :
    count_ones n = if n = 0 then 0 else count_ones (n / 2) + n % 2 := by
  cases n with
  | zero => simp [count_ones, count_ones_fuel]
  | succ m =>
    show count_ones_fuel (m+1) (m+1) = _
    simp only [count_ones_fuel, if_neg (Nat.succ_ne_zero m), Nat.succ_ne_zero, if_false]
    congr 1
    exact count_ones_fuel_congr m ((m+1)/2) ((m+1)/2)
      (Nat.le_of_lt_succ (Nat.div_lt_self (Nat.succ_pos m) one_lt_two)) le_rfl

theorem trailing_ones_fuel_congr : ∀ f₁ f₂ n, n ≤ f₁ → n ≤ f₂ →
    trailing_ones_fuel f₁ n = trailing_ones_fuel f₂ n := by
  intro f₁
  induction f₁ with
  | zero =>
    intro f₂ n h1 _
    interval_cases n
    cases f₂ <;> simp [trailing_ones_fuel]
  | succ f ih =>
    intro f₂ n h1 h2
    match f₂, n with
    | 0, n =>
      interval_cases n
      simp [trailing_ones_fuel]
    | g+1, 0 => simp [trailing_ones_fuel]
    | g+1, n+1 =>
      simp only [trailing_ones_fuel]
      have hd : (n+1) / 2 ≤ f := Nat.le_of_lt_succ (Nat.lt_of_lt_of_le (Nat.div_lt_self (Nat.succ_pos n) one_lt_two) h1)
      have hd2 : (n+1) / 2 ≤ g := Nat.le_of_lt_succ (Nat.lt_of_lt_of_le (Nat.div_lt_self (Nat.succ_pos n) one_lt_two) h2)
      rw [ih g ((n+1)/2) hd hd2]

theorem trailing_ones_eq (n : Nat) :
    trailing_ones n = if n % 2 = 1 then trailing_ones (n / 2) + 1 else 0 := by
  cases n with
  | zero => simp [trailing_ones, trailing_ones_fuel]
  | succ m =>
    show trailing_ones_fuel (m+1) (m+1) = _
    simp only [trailing_ones_fuel]
    by_cases h : (m+1) % 2 = 1
    · simp only [if_pos h]
      congr 1
      exact trailing_ones_fuel_congr m ((m+1)/2) ((m+1)/2)
        (Nat.le_of_lt_succ (Nat.div_lt_self (Nat.succ_pos m) one_lt_two)) le_rfl
    · simp [h]

theorem trailing_zeros_fuel_congr : ∀ f₁ f₂ n, n ≤ f₁ → n ≤ f₂ →
    trailing_zeros_fuel f₁ n = trailing_zeros_fuel f₂ n := by
  intro f₁
  induction f₁ with
  | zero =>
    intro f₂ n h1 _
    interval_cases n
    cases f₂ <;> simp [trailing_zeros_fuel]
  | succ f ih =>
    intro f₂ n h1 h2
    match f₂, n with
    | 0, n =>
      interval_cases n
      simp [trailing_zeros_fuel]
    | g+1, 0 => simp [trailing_zeros_fuel]
    | g+1, n+1 =>
      simp only [trailing_zeros_fuel, if_neg (Nat.succ_ne_zero n)]
      have hd : (n+1) / 2 ≤ f := Nat.le_of_lt_succ (Nat.lt_of_lt_of_le (Nat.div_lt_self (Nat.succ_pos n) one_lt_two) h1)
      have hd2 : (n+1) / 2 ≤ g := Nat.le_of_lt_succ (Nat.lt_of_lt_of_le (Nat.div_lt_self (Nat.succ_pos n) one_lt_two) h2)
      rw [ih g ((n+1)/2) hd hd2]

theorem trailing_zeros_eq (n : Nat) :
    trailing_zeros n = if n = 0 then 0 else if n % 2 = 1 then 0 else trailing_zeros (n / 2) + 1 := by
  cases n with
  | zero => simp [trailing_zeros, trailing_zeros_fuel]
  | succ m =>
    show trailing_zeros_fuel (m+1) (m+1) = _
    simp only [trailing_zeros_fuel, if_neg (Nat.succ_ne_zero m), Nat.succ_ne_zero, if_false]
    by_cases h : (m+1) % 2 = 1
    · simp [h]
    · simp only [if_neg h]
      congr 1
      exact trailing_zeros_fuel_congr m ((m+1)/2) ((m+1)/2)
        (Nat.le_of_lt_succ (Nat.div_lt_self (Nat.succ_pos m) one_lt_two)) le_rfl

theorem ilog2_fuel_congr : ∀ f₁ f₂ n, n ≤ f₁ → n ≤ f₂ →
    ilog2_fuel f₁ n = ilog2_fuel f₂ n := by
  intro f₁
  induction f₁ with
  | zero =>
    intro f₂ n h1 _
    interval_cases n
    cases f₂ <;> simp [ilog2_fuel]
  | succ f ih =>
    intro f₂ n h1 h2
    match f₂, n with
    | 0, n =>
      interval_cases n
      simp [ilog2_fuel]
    | g+1, 0 => simp [ilog2_fuel]
    | g+1, n+1 =>
      simp only [ilog2_fuel]
      by_cases h : 2 ≤ n+1
      · simp only [if_pos h]
        have hd : (n+1) / 2 ≤ f := Nat.le_of_lt_succ (Nat.lt_of_lt_of_le (Nat.div_lt_self (Nat.succ_pos n) one_lt_two) h1)
        have hd2 : (n+1) / 2 ≤ g := Nat.le_of_lt_succ (Nat.lt_of_lt_of_le (Nat.div_lt_self (Nat.succ_pos n) one_lt_two) h2)
        rw [ih g ((n+1)/2) hd hd2]
      · simp [h]

theorem ilog2_eq (n : Nat) :
    ilog2 n = if 2 ≤ n then ilog2 (n / 2) + 1 else 0 := by
  cases n with
  | zero => simp [ilog2, ilog2_fuel]
  | succ m =>
    show ilog2_fuel (m+1) (m+1) = _
    simp only [ilog2_fuel]
    by_cases h : 2 ≤ m+1
    · simp only [if_pos h]
      congr 1
      exact ilog2_fuel_congr m ((m+1)/2) ((m+1)/2)
        (Nat.le_of_lt_succ (Nat.div_lt_self (Nat.succ_pos m) one_lt_two)) le_rfl
    · simp [h]

theorem count_ones_zero : count_ones 0 = 0 := rfl

theorem count_ones_two_mul (k : Nat) : count_ones (2 * k) = count_ones k := by
  rw [count_ones_eq]
  by_cases hk : k = 0
  · simp [hk, count_ones_zero]
  · have h2 : 2 * k ≠ 0 := by omega
    simp only [if_neg h2]
    have : 2 * k / 2 = k := by omega
    have h3 : 2 * k % 2 = 0 := by omega
    rw [this, h3]
    omega

theorem count_ones_two_mul_add_one (k : Nat) : count_ones (2 * k + 1) = count_ones k + 1 := by
  rw [count_ones_eq]
  have h2 : 2 * k + 1 ≠ 0 := by omega
  simp only [if_neg h2]
  have : (2 * k + 1) / 2 = k := by omega
  have h3 : (2 * k + 1) % 2 = 1 := by omega
  rw [this, h3]

theorem trailing_ones_two_mul (k : Nat) : trailing_ones (2 * k) = 0 := by
  rw [trailing_ones_eq]
  have : ¬ (2 * k % 2 = 1) := by omega
  simp [this]

theorem trailing_ones_two_mul_add_one (k : Nat) :
    trailing_ones (2 * k + 1) = trailing_ones k + 1 := by
  rw [trailing_ones_eq]
  have h3 : (2 * k + 1) % 2 = 1 := by omega
  have h4 : (2 * k + 1) / 2 = k := by omega
  simp [h3, h4]

theorem count_ones_le (n : Nat) : count_ones n ≤ n := by
  induction n using Nat.strong_induction_on with
  | _ n ih =>
    rcases Nat.eq_zero_or_pos n with h | h
    · simp [h, count_ones_zero]
    · rw [count_ones_eq, if_neg (by omega : n ≠ 0)]
      have := ih (n / 2) (by omega)
      omega

theorem count_ones_succ (n : Nat) :
    count_ones (n + 1) + trailing_ones n = count_ones n + 1 := by
  induction n using Nat.strong_induction_on with
  | _ n ih =>
    rcases Nat.even_or_odd n with ⟨k, hk⟩ | ⟨k, hk⟩
    · subst hk
      rw [show k + k = 2 * k by ring, trailing_ones_two_mul,
        show 2 * k + 1 = 2 * k + 1 by rfl, count_ones_two_mul_add_one, count_ones_two_mul]
    · subst hk
      have h1 : 2 * k + 1 + 1 = 2 * (k + 1) := by ring
      rw [h1, count_ones_two_mul, trailing_ones_two_mul_add_one, count_ones_two_mul_add_one]
      have := ih k (by omega)
      omega

/-- `consts::MAX_LEN = usize::MAX / 2` on a 64-bit target. -/
def MAX_LEN : Nat := (2 ^ 64 - 1) / 2

/-- `node_id::get_nodes_len_for`: the total number of nodes required to
store `len` elements, `len * 2 - len.count_ones()`. -/
def get_nodes_len_for (len : Nat) : Nat := len * 2 - count_ones len

/-- `node_id::get_max_level_from_index`: `index.trailing_ones()`. -/
def get_max_level_from_index (index : Nat) : Nat := trailing_ones index

/-- `NodeId::node_index`: `get_nodes_len_for(index) + level`. -/
def node_index (index level : Nat) : Nat := get_nodes_len_for index + level

theorem get_nodes_len_for_zero : get_nodes_len_for 0 = 0 := rfl

theorem get_nodes_len_for_succ (n : Nat) :
    get_nodes_len_for (n + 1) = get_nodes_len_for n + trailing_ones n + 1 := by
  have h1 := count_ones_le n
  have h2 := count_ones_le (n + 1)
  have h3 := count_ones_succ n
  unfold get_nodes_len_for
  omega

theorem get_nodes_len_for_le {m n : Nat} (h : m ≤ n) :
    get_nodes_len_for m ≤ get_nodes_len_for n := by
  induction n with
  | zero =>
    have hm : m = 0 := by omega
    subst hm
    exact le_rfl
  | succ k ih =>
    rcases Nat.lt_or_ge m (k + 1) with h' | h'
    · have h1 := ih (by omega)
      rw [get_nodes_len_for_succ]
      omega
    · have hm : m = k + 1 := by omega
      subst hm
      exact le_rfl

theorem get_nodes_len_for_lt {m n : Nat} (h : m < n) :
    get_nodes_len_for m < get_nodes_len_for n := by
  have h1 : m + 1 ≤ n := h
  have h2 := get_nodes_len_for_le h1
  have h3 := get_nodes_len_for_succ m
  omega

theorem node_index_lt_of_level_le {i l : Nat} (h : l ≤ trailing_ones i) :
    node_index i l < get_nodes_len_for (i + 1) := by
  rw [get_nodes_len_for_succ]
  unfold node_index
  omega

/-- Distinct valid `(index, level)` pairs occupy distinct storage slots. -/
theorem node_index_inj_aux {i₁ l₁ i₂ l₂ : Nat}
    (h₁ : l₁ ≤ trailing_ones i₁) (h₂ : l₂ ≤ trailing_ones i₂)
    (h : node_index i₁ l₁ = node_index i₂ l₂) : i₁ = i₂ ∧ l₁ = l₂ := by
  rcases lt_trichotomy i₁ i₂ with hlt | heq | hgt
  · exfalso
    have ha := node_index_lt_of_level_le h₁
    have hb := get_nodes_len_for_le (show i₁ + 1 ≤ i₂ from hlt)
    unfold node_index at h ha
    omega
  · subst heq
    unfold node_index at h
    omega
  · exfalso
    have ha := node_index_lt_of_level_le h₂
    have hb := get_nodes_len_for_le (show i₂ + 1 ≤ i₁ from hgt)
    unfold node_index at h ha
    omega

/-- Every storage slot below `get_nodes_len_for n` is the slot of exactly one
valid node `(i, l)` with `i < n`. -/
theorem slot_decomp {s n : Nat} (h : s < get_nodes_len_for n) :
    ∃ i l, i < n ∧ l ≤ trailing_ones i ∧ s = node_index i l := by
  induction n with
  | zero => simp [get_nodes_len_for_zero] at h
  | succ k ih =>
    rcases Nat.lt_or_ge s (get_nodes_len_for k) with h' | h'
    · obtain ⟨i, l, hi, hl, hs⟩ := ih h'
      exact ⟨i, l, by omega, hl, hs⟩
    · refine ⟨k, s - get_nodes_len_for k, by omega, ?_, ?_⟩
      · rw [get_nodes_len_for_succ] at h
        omega
      · unfold node_index
        omega

theorem pow_trailing_ones_dvd (n : Nat) : 2 ^ trailing_ones n ∣ n + 1 := by
  induction n using Nat.strong_induction_on with
  | _ n ih =>
    rcases Nat.even_or_odd n with ⟨k, hk⟩ | ⟨k, hk⟩
    · have hk' : n = 2 * k := by omega
      subst hk'
      rw [trailing_ones_two_mul]
      simp
    · subst hk
      rw [trailing_ones_two_mul_add_one]
      have := ih k (by omega)
      have h2 : 2 * k + 1 + 1 = 2 * (k + 1) := by ring
      rw [h2, pow_succ, mul_comm (2 ^ trailing_ones k) 2]
      exact mul_dvd_mul dvd_rfl this

theorem not_pow_trailing_ones_succ_dvd (n : Nat) :
    ¬ 2 ^ (trailing_ones n + 1) ∣ n + 1 := by
  induction n using Nat.strong_induction_on with
  | _ n ih =>
    rcases Nat.even_or_odd n with ⟨k, hk⟩ | ⟨k, hk⟩
    · have hk' : n = 2 * k := by omega
      subst hk'
      rw [trailing_ones_two_mul]
      intro hdvd
      have hh : (2:Nat) ^ (0 + 1) = 2 := by norm_num
      rw [hh] at hdvd
      omega
    · subst hk
      rw [trailing_ones_two_mul_add_one]
      intro hdvd
      apply ih k (by omega)
      have h2 : 2 * k + 1 + 1 = 2 * (k + 1) := by ring
      rw [h2] at hdvd
      have h3 : 2 ^ (trailing_ones k + 1 + 1) = 2 * 2 ^ (trailing_ones k + 1) := by ring
      rw [h3] at hdvd
      exact (Nat.mul_dvd_mul_iff_left (by omega : 0 < 2)).mp hdvd

theorem le_trailing_ones_of_pow_dvd {l n : Nat} (h : 2 ^ l ∣ n + 1) :
    l ≤ trailing_ones n := by
  induction l generalizing n with
  | zero => omega
  | succ m ih =>
    have h2 : 2 ∣ n + 1 := dvd_trans (by exact Dvd.intro_left (2 ^ m) rfl) h
    have hodd : n % 2 = 1 := by omega
    obtain ⟨k, hk⟩ : ∃ k, n = 2 * k + 1 := ⟨n / 2, by omega⟩
    subst hk
    rw [trailing_ones_two_mul_add_one]
    have h3 : 2 * k + 1 + 1 = 2 * (k + 1) := by ring
    rw [h3, show (2:Nat) ^ (m+1) = 2 * 2 ^ m by ring] at h
    have h4 : 2 ^ m ∣ k + 1 := (Nat.mul_dvd_mul_iff_left (by omega : 0 < 2)).mp h
    have := ih h4
    omega

theorem le_trailing_ones_add_pow {l m : Nat} (h : 2 ^ l ∣ m) :
    l ≤ trailing_ones (m + 2 ^ l - 1) := by
  have hp : 1 ≤ 2 ^ l := Nat.one_le_two_pow
  apply le_trailing_ones_of_pow_dvd
  have : m + 2 ^ l - 1 + 1 = m + 2 ^ l := by omega
  rw [this]
  exact Nat.dvd_add h dvd_rfl

theorem trailing_zeros_zero : trailing_zeros 0 = 0 := rfl

theorem pow_trailing_zeros_dvd (n : Nat) : 2 ^ trailing_zeros n ∣ n := by
  induction n using Nat.strong_induction_on with
  | _ n ih =>
    rcases Nat.eq_zero_or_pos n with h | h
    · simp [h, trailing_zeros_zero]
    · rw [trailing_zeros_eq, if_neg (by omega : n ≠ 0)]
      by_cases hodd : n % 2 = 1
      · simp [hodd]
      · simp only [if_neg hodd]
        obtain ⟨k, hk⟩ : ∃ k, n = 2 * k := ⟨n / 2, by omega⟩
        subst hk
        have hdiv : 2 * k / 2 = k := by omega
        rw [hdiv, pow_succ, mul_comm (2 ^ trailing_zeros k) 2]
        exact mul_dvd_mul dvd_rfl (ih k (by omega))

theorem pow_trailing_zeros_le {n : Nat} (h : 0 < n) : 2 ^ trailing_zeros n ≤ n :=
  Nat.le_of_dvd h (pow_trailing_zeros_dvd n)

theorem pow_dvd_of_le_trailing_zeros {l n : Nat} (h : l ≤ trailing_zeros n) : 2 ^ l ∣ n := by
  exact dvd_trans (pow_dvd_pow 2 h) (pow_trailing_zeros_dvd n)

theorem le_trailing_zeros_of_pow_dvd {l n : Nat} (hn : 0 < n) (h : 2 ^ l ∣ n) :
    l ≤ trailing_zeros n := by
  induction l generalizing n with
  | zero => omega
  | succ m ih =>
    have h2 : 2 ∣ n := dvd_trans (by exact Dvd.intro_left (2 ^ m) rfl) h
    obtain ⟨k, hk⟩ : ∃ k, n = 2 * k := ⟨n / 2, by omega⟩
    subst hk
    rw [trailing_zeros_eq, if_neg (by omega : 2 * k ≠ 0), if_neg (by omega : ¬ (2 * k % 2 = 1))]
    have hdiv : 2 * k / 2 = k := by omega
    rw [hdiv]
    rw [show (2:Nat) ^ (m+1) = 2 * 2 ^ m by ring] at h
    have h4 : 2 ^ m ∣ k := (Nat.mul_dvd_mul_iff_left (by omega : 0 < 2)).mp h
    have := ih (by omega) h4
    omega

theorem trailing_ones_add_pow_self (n : Nat) :
    trailing_ones n + 1 ≤ trailing_ones (n + 2 ^ trailing_ones n) := by
  set t := trailing_ones n with ht
  obtain ⟨q, hq⟩ := pow_trailing_ones_dvd n
  have hodd : q % 2 = 1 := by
    by_contra hq2
    obtain ⟨r, hr⟩ : ∃ r, q = 2 * r := ⟨q / 2, by omega⟩
    exact not_pow_trailing_ones_succ_dvd n
      ⟨r, by rw [hq, hr]; ring⟩
  apply le_trailing_ones_of_pow_dvd
  have hstep : n + 2 ^ t + 1 = 2 ^ t * (q + 1) := by rw [mul_add, ← hq]; ring
  rw [hstep]
  obtain ⟨r, hr⟩ : ∃ r, q + 1 = 2 * r := ⟨(q + 1) / 2, by omega⟩
  rw [hr, show (2:Nat) ^ (t + 1) = 2 ^ t * 2 by ring]
  exact Nat.mul_dvd_mul dvd_rfl ⟨r, rfl⟩

/-- Directly after a run of `trailing_ones n` one-bits there is a zero bit:
adding `δ < 2 ^ trailing_ones n` to `n` lands in positions whose own trailing
one count is small, bounded by `δ` as a power of two. -/
theorem pow_trailing_ones_add_le {n δ : Nat} (h0 : 0 < δ)
    (h1 : δ < 2 ^ trailing_ones n) : 2 ^ trailing_ones (n + δ) ≤ δ := by
  set m := trailing_ones n with hm
  set t := trailing_ones (n + δ) with htt
  have hdvd : 2 ^ t ∣ δ := by
    rcases le_or_lt t m with hle | hlt
    · have d1 : 2 ^ t ∣ n + 1 := dvd_trans (pow_dvd_pow 2 hle) (pow_trailing_ones_dvd n)
      have d2 : 2 ^ t ∣ n + δ + 1 := pow_trailing_ones_dvd (n + δ)
      have : δ = (n + δ + 1) - (n + 1) := by omega
      rw [this]
      exact Nat.dvd_sub' d2 d1
    · exfalso
      obtain ⟨q, hq⟩ := pow_trailing_ones_dvd n
      have hodd : q % 2 = 1 := by
        by_contra hq2
        obtain ⟨r, hr⟩ : ∃ r, q = 2 * r := ⟨q / 2, by omega⟩
        exact not_pow_trailing_ones_succ_dvd n ⟨r, by rw [hq, hr]; ring⟩
      have d2 : 2 ^ (m + 1) ∣ n + δ + 1 :=
        dvd_trans (pow_dvd_pow 2 (by omega)) (pow_trailing_ones_dvd (n + δ))
      obtain ⟨u, hu⟩ := d2
      obtain ⟨r, hr⟩ : ∃ r, q = 2 * r + 1 := ⟨q / 2, by omega⟩
      -- n + 1 = 2^m (2r+1) and n + δ + 1 = 2^(m+1) u forces δ ≥ 2^m
      have hlt2 : 2 ^ m * (2 * r + 1) < 2 ^ m * (2 * u) := by
        calc 2 ^ m * (2 * r + 1) = n + 1 := by rw [hq, hr]
        _ < n + δ + 1 := by omega
        _ = 2 ^ m * (2 * u) := by rw [hu]; ring
      have hru : 2 * r + 1 < 2 * u := Nat.lt_of_mul_lt_mul_left hlt2
      have hδ : δ = 2 ^ m * (2 * u) - 2 ^ m * (2 * r + 1) := by
        have e1 : n + 1 = 2 ^ m * (2 * r + 1) := by rw [hq, hr]
        have e2 : n + δ + 1 = 2 ^ m * (2 * u) := by rw [hu]; ring
        omega
      rw [← Nat.mul_sub_left_distrib] at hδ
      have : 2 ^ m * 1 ≤ 2 ^ m * (2 * u - (2 * r + 1)) :=
        Nat.mul_le_mul_left _ (by omega)
      omega
  calc 2 ^ t ≤ δ := Nat.le_of_dvd h0 hdvd

theorem pow_ilog2_le {n : Nat} (h : 1 ≤ n) : 2 ^ ilog2 n ≤ n := by
  induction n using Nat.strong_induction_on with
  | _ n ih =>
    rw [ilog2_eq]
    by_cases h2 : 2 ≤ n
    · rw [if_pos h2]
      have hd : 1 ≤ n / 2 := by omega
      have := ih (n / 2) (by omega) hd
      calc 2 ^ (ilog2 (n / 2) + 1) = 2 * 2 ^ ilog2 (n / 2) := by ring
      _ ≤ 2 * (n / 2) := by omega
      _ ≤ n := by omega
    · rw [if_neg h2]
      omega

theorem lt_pow_ilog2_succ (n : Nat) : n < 2 ^ (ilog2 n + 1) := by
  induction n using Nat.strong_induction_on with
  | _ n ih =>
    rw [ilog2_eq]
    by_cases h2 : 2 ≤ n
    · rw [if_pos h2]
      have := ih (n / 2) (by omega)
      calc n < 2 * (n / 2) + 2 := by omega
      _ ≤ 2 * 2 ^ (ilog2 (n / 2) + 1) := by omega
      _ = 2 ^ (ilog2 (n / 2) + 1 + 1) := by ring
    · rw [if_neg h2]
      omega


section BuildNodes

variable {M : Type} [AddMonoid M]

/-- The intended value of node `(i, l)`: the sum of the `2 ^ l` consecutive
elements ending at index `i` (the doc comment of `lib.rs`:
`nodes[node_id] = elements[index - width + 1..=index].iter().sum()`). -/
def nodeVal (es : List M) (i l : Nat) : M :=
  ((es.drop (i + 1 - 2 ^ l)).take (2 ^ l)).sum

/-- The nodes stored for leaf `i`: levels `0..=trailing_ones i`. -/
def leafChain (es : List M) (i : Nat) : List M :=
  (List.range (trailing_ones i + 1)).map (nodeVal es i)

/-- The canonical (fully clean) node buffer for the first `n` leaves. -/
def buildAux (es : List M) : Nat → List M
  | 0 => []
  | n+1 => buildAux es n ++ leafChain es n

/-- The canonical node buffer of an element list: what `nodes` contains in a
quiescent tree. -/
def buildNodes (es : List M) : List M := buildAux es es.length

theorem length_leafChain (es : List M) (i : Nat) :
    (leafChain es i).length = trailing_ones i + 1 := by
  simp [leafChain]

theorem length_buildAux (es : List M) : ∀ n, (buildAux es n).length = get_nodes_len_for n
  | 0 => by simp [buildAux, get_nodes_len_for_zero]
  | n+1 => by
    simp only [buildAux, List.length_append, length_buildAux es n, length_leafChain,
      get_nodes_len_for_succ]
    omega

theorem buildAux_getElem? (es : List M) {n i l : Nat} (hi : i < n) (hl : l ≤ trailing_ones i) :
    (buildAux es n)[node_index i l]? = some (nodeVal es i l) := by
  induction n with
  | zero => omega
  | succ k ih =>
    rcases Nat.lt_or_ge i k with h' | h'
    · have hslot : node_index i l < (buildAux es k).length := by
        rw [length_buildAux]
        exact Nat.lt_of_lt_of_le (node_index_lt_of_level_le hl) (get_nodes_len_for_le h')
      simp only [buildAux, List.getElem?_append, if_pos hslot]
      exact ih h'
    · have hik : i = k := by omega
      subst hik
      have hlen : (buildAux es i).length = get_nodes_len_for i := length_buildAux es i
      have hsplit : node_index i l = (buildAux es i).length + l := by
        rw [hlen]; rfl
      rw [buildAux, hsplit, List.getElem?_append_right (by omega), Nat.add_sub_cancel_left]
      simp only [leafChain, List.getElem?_map, List.getElem?_range (by omega : l < trailing_ones i + 1)]
      rfl

theorem buildNodes_getElem? (es : List M) {i l : Nat} (hi : i < es.length)
    (hl : l ≤ trailing_ones i) :
    (buildNodes es)[node_index i l]? = some (nodeVal es i l) :=
  buildAux_getElem? es hi hl

theorem length_buildNodes (es : List M) :
    (buildNodes es).length = get_nodes_len_for es.length := length_buildAux es es.length

theorem nodeVal_eq_of_take_eq {es es' : List M} {n i l : Nat} (hi : i < n)
    (hw : 2 ^ l ≤ i + 1) (h : es.take n = es'.take n) :
    nodeVal es i l = nodeVal es' i l := by
  have key : ∀ fs : List M, nodeVal (fs.take n) i l = nodeVal fs i l := by
    intro fs
    unfold nodeVal
    congr 1
    rw [List.drop_take, List.take_take]
    congr 1
    omega
  rw [← key es, h, key es']

theorem pow_le_succ_of_le_trailing_ones {i l : Nat} (hl : l ≤ trailing_ones i) :
    2 ^ l ≤ i + 1 :=
  Nat.le_trans (Nat.pow_le_pow_right (by omega) hl)
    (Nat.le_of_dvd (by omega) (pow_trailing_ones_dvd i))

theorem leafChain_eq_of_take_eq {es es' : List M} {n i : Nat} (hi : i < n)
    (h : es.take n = es'.take n) : leafChain es i = leafChain es' i := by
  unfold leafChain
  apply List.map_congr_left
  intro l hl
  rw [List.mem_range] at hl
  exact nodeVal_eq_of_take_eq hi (pow_le_succ_of_le_trailing_ones (by omega)) h

theorem buildAux_eq_of_take_eq {es es' : List M} {n : Nat} (h : es.take n = es'.take n) :
    ∀ m, m ≤ n → buildAux es m = buildAux es' m := by
  intro m
  induction m with
  | zero => intro; rfl
  | succ k ih =>
    intro hk
    have h1 : es.take k = es'.take k := by
      have e1 : es.take k = (es.take n).take k := by rw [List.take_take, Nat.min_eq_left (by omega)]
      have e2 : es'.take k = (es'.take n).take k := by rw [List.take_take, Nat.min_eq_left (by omega)]
      rw [e1, e2, h]
    simp only [buildAux, ih (by omega)]
    rw [leafChain_eq_of_take_eq (show k < n by omega) h]

theorem foldl_add_eq (a : M) (l : List M) : List.foldl (· + ·) a l = a + l.sum := by
  induction l generalizing a with
  | nil => simp
  | cons x xs ih => simp [ih, add_assoc]

theorem nodeVal_leaf {es : List M} {i : Nat} (h : i < es.length) :
    nodeVal es i 0 = es.getD i 0 := by
  unfold nodeVal
  rw [pow_zero, Nat.add_sub_cancel]
  have h2 : (es.drop i).take 1 = [es[i]] := by
    rw [List.drop_eq_getElem_cons h]
    rfl
  rw [h2, List.sum_cons, List.sum_nil, add_zero, List.getD, List.get?_eq_getElem?,
    List.getElem?_eq_getElem h]
  rfl

theorem nodeVal_split {es : List M} {i l : Nat} (hl : 1 ≤ l) (hw : 2 ^ l ≤ i + 1) :
    nodeVal es i l = nodeVal es (i - 2 ^ (l - 1)) (l - 1) + nodeVal es i (l - 1) := by
  have hpow : 2 ^ l = 2 ^ (l - 1) + 2 ^ (l - 1) := by
    have h2 : 2 ^ (l - 1 + 1) = 2 ^ (l - 1) * 2 := pow_succ 2 (l - 1)
    have h3 : l - 1 + 1 = l := by omega
    rw [h3] at h2
    omega
  have hp1 : 1 ≤ 2 ^ (l - 1) := Nat.one_le_two_pow
  rw [hpow] at hw
  unfold nodeVal
  rw [hpow, List.take_add, List.sum_append, List.drop_drop]
  have e1 : i + 1 - (2 ^ (l-1) + 2 ^ (l-1)) = (i - 2 ^ (l-1)) + 1 - 2 ^ (l-1) := by omega
  have e2 : i + 1 - (2 ^ (l-1) + 2 ^ (l-1)) + 2 ^ (l-1) = i + 1 - 2 ^ (l-1) := by omega
  rw [e2, e1]

end BuildNodes

/-- `PostfixSegmentTree<T>`: a flat node buffer (`nodes: Vec<T>`) plus the
logical element count (`len`).  The Vec is modelled by its contents; buffer
capacity is modelled separately for the capacity-management API. -/
structure PostfixSegmentTree (M : Type) where
  nodes : List M
  len : Nat

namespace PostfixSegmentTree

variable {M : Type} [AddMonoid M]

/-- `PostfixSegmentTree::new()`. -/
def new (M : Type) : PostfixSegmentTree M := ⟨[], 0⟩

/-- `PostfixSegmentTree::nodes_len()`. -/
def nodes_len (t : PostfixSegmentTree M) : Nat := t.nodes.length

/-- `get_node`: `&self.nodes[id.node_index()]`.  The Rust indexing panics out
of range; here an out-of-range slot reads the identity element, and every
use below is proven in bounds. -/
def get_node (t : PostfixSegmentTree M) (i l : Nat) : M :=
  t.nodes.getD (node_index i l) 0

/-- `get_leaf_node`: level-0 `get_node`. -/
def get_leaf_node (t : PostfixSegmentTree M) (i : Nat) : M :=
  t.nodes.getD (node_index i 0) 0

/-- `PostfixSegmentTree::get` (`index.rs`): the safe query path. -/
def get (t : PostfixSegmentTree M) (index : Nat) : Option M :=
  if t.len ≤ index then none else some (get_leaf_node t index)

/-- `Index::index` (`tree[index]`, `index.rs`): a raw slot access with no
bounds check against `len`; `none` models the buffer-indexing panic. -/
def index_get (t : PostfixSegmentTree M) (index : Nat) : Option M :=
  t.nodes[node_index index 0]?

/-- Writing through `get_leaf_node_mut`. -/
def set_leaf_node (t : PostfixSegmentTree M) (i : Nat) (v : M) : PostfixSegmentTree M :=
  ⟨t.nodes.set (node_index i 0) v, t.len⟩

/-- `swap_leaf_nodes`: `self.nodes.swap(left, right)` on the two leaf slots. -/
def swap_leaf_nodes (t : PostfixSegmentTree M) (a b : Nat) : PostfixSegmentTree M :=
  ⟨(t.nodes.set (node_index a 0) (t.nodes.getD (node_index b 0) 0)).set (node_index b 0)
      (t.nodes.getD (node_index a 0) 0),
    t.len⟩

/-- `Vec::resize_with(n, T::default)`. -/
def resize_with (l : List M) (n : Nat) : List M :=
  if n ≤ l.length then l.take n else l ++ List.replicate (n - l.length) 0

/-- `push_default_dirty`: grow `nodes` to `get_nodes_len_for (len+1)` with
default values and bump `len`; the fresh leaf is at index `len - 1` of the
result (the old `len`). -/
def push_default_dirty (t : PostfixSegmentTree M) : PostfixSegmentTree M :=
  ⟨resize_with t.nodes (get_nodes_len_for (t.len + 1)), t.len + 1⟩

/-- `PostfixSegmentTree::truncate`. -/
def truncate (t : PostfixSegmentTree M) (len : Nat) : PostfixSegmentTree M :=
  if t.len ≤ len then t else ⟨t.nodes.take (get_nodes_len_for len), len⟩

/-- `pop`: swap the identity into the last leaf slot, return the old value,
and truncate the buffer to `get_nodes_len_for (len - 1)`. -/
def pop (t : PostfixSegmentTree M) : M × PostfixSegmentTree M :=
  let popped := get_leaf_node t (t.len - 1)
  let t' : PostfixSegmentTree M := ⟨t.nodes.set (node_index (t.len - 1) 0) 0, t.len⟩
  (popped, truncate t' (t.len - 1))

/-- The descending swap loop of `rotate_leaf_nodes_right_by_one_dirty`:
`for i in (index..index+s).rev() { swap(i, i+1) }`. -/
def rotate_right_aux (t : PostfixSegmentTree M) (index : Nat) : Nat → PostfixSegmentTree M
  | 0 => t
  | s+1 => rotate_right_aux (swap_leaf_nodes t (index + s) (index + s + 1)) index s

/-- `rotate_leaf_nodes_right_by_one_dirty`. -/
def rotate_leaf_nodes_right_by_one_dirty (t : PostfixSegmentTree M) (index : Nat) :
    PostfixSegmentTree M :=
  rotate_right_aux t index (t.len - index - 1)

/-- The ascending swap loop of `rotate_leaf_nodes_left_by_one_dirty`:
`for i in index..(index+s) { swap(i, i+1) }`. -/
def rotate_left_aux (t : PostfixSegmentTree M) (index : Nat) : Nat → PostfixSegmentTree M
  | 0 => t
  | s+1 => rotate_left_aux (swap_leaf_nodes t index (index + 1)) (index + 1) s

/-- `rotate_leaf_nodes_left_by_one_dirty`. -/
def rotate_leaf_nodes_left_by_one_dirty (t : PostfixSegmentTree M) (index : Nat) :
    PostfixSegmentTree M :=
  rotate_left_aux t index (t.len - 1 - index)

/-- `recalculate_node`: overwrite node `(i, l)` with
`default + left_child + right_child`, left child first. -/
def recalculate_node (t : PostfixSegmentTree M) (i l : Nat) : PostfixSegmentTree M :=
  ⟨t.nodes.set (node_index i l)
      ((0 : M) + get_node t (i - 2 ^ (l - 1)) (l - 1) + get_node t i (l - 1)),
    t.len⟩

/-- The inner `while current_level <= max_level` loop of
`recalculate_nodes_after_update`, recalculating `k` consecutive levels of
leaf `i` starting at level `cl`. -/
def recalc_levels (t : PostfixSegmentTree M) (i : Nat) : Nat → Nat → PostfixSegmentTree M
  | _, 0 => t
  | cl, k+1 => recalc_levels (recalculate_node t i cl) i (cl + 1) k

/-- The outer `while current_index < len` loop of
`recalculate_nodes_after_update`; one fuel unit per iteration (the cursor
strictly increases, so `t.len` units suffice). -/
def recalc_upd_aux : Nat → PostfixSegmentTree M → Nat → Nat → PostfixSegmentTree M
  | 0, t, _, _ => t
  | fuel+1, t, ci, cl =>
    if ci < t.len then
      let ml := get_max_level_from_index ci
      let t' := recalc_levels t ci cl (ml + 1 - cl)
      let cl' := max cl (ml + 1)
      recalc_upd_aux fuel t' (ci + 2 ^ (cl' - 1)) cl'
    else t

/-- `recalculate_nodes_after_update`. -/
def recalculate_nodes_after_update (t : PostfixSegmentTree M) (id : Nat) :
    PostfixSegmentTree M :=
  recalc_upd_aux t.len t id 1

/-- The inner `for level in 1..=max_level` loop of
`recalculate_nodes_after_bulk_update`. -/
def recalc_chain (t : PostfixSegmentTree M) (i : Nat) : PostfixSegmentTree M :=
  List.foldl (fun s l => recalculate_node s i l) t
    (List.range' 1 (get_max_level_from_index i))

/-- `recalculate_nodes_after_bulk_update`: recalculate every ancestor chain
of leaves `id..len`. -/
def recalculate_nodes_after_bulk_update (t : PostfixSegmentTree M) (id : Nat) :
    PostfixSegmentTree M :=
  List.foldl (fun s i => recalc_chain s i) t (List.range' id (t.len - id))

/-- `PostfixSegmentTree::update` (requires `index < len`). -/
def update (t : PostfixSegmentTree M) (index : Nat) (element : M) : PostfixSegmentTree M :=
  recalculate_nodes_after_update (set_leaf_node t index element) index

/-- `PostfixSegmentTree::push`. -/
def push (t : PostfixSegmentTree M) (element : M) : PostfixSegmentTree M :=
  recalculate_nodes_after_update (set_leaf_node (push_default_dirty t) t.len element) t.len

/-- `PostfixSegmentTree::insert` (requires `index ≤ len`). -/
def insert (t : PostfixSegmentTree M) (index : Nat) (element : M) : PostfixSegmentTree M :=
  recalculate_nodes_after_bulk_update
    (rotate_leaf_nodes_right_by_one_dirty
      (set_leaf_node (push_default_dirty t) t.len element) index)
    index

/-- `PostfixSegmentTree::remove` (requires `index < len`): returns the
removed element and the new tree. -/
def remove (t : PostfixSegmentTree M) (index : Nat) : M × PostfixSegmentTree M :=
  let p := pop (rotate_leaf_nodes_left_by_one_dirty t index)
  (p.1, recalculate_nodes_after_bulk_update p.2 index)

end PostfixSegmentTree

namespace PostfixSegmentTree

variable {M : Type} [AddMonoid M]

/-- Fueled loop of `SkippingIterator` (`skipping_iterator.rs`): from cursor
`cur` with bound `e`, repeatedly emit
`(cur + width - 1, level)` where `level = (e - cur).ilog2()` and
`width = 1 << level` (`step_skipping_iterator`), advancing the cursor past
the emitted node; stop when the cursor reaches `e`. -/
def skip_list_aux (e : Nat) : Nat → Nat → List (Nat × Nat)
  | 0, _ => []
  | fuel+1, cur =>
    if cur < e then
      (cur + 2 ^ ilog2 (e - cur) - 1, ilog2 (e - cur)) ::
        skip_list_aux e fuel (cur + 2 ^ ilog2 (e - cur))
    else []

/-- All nodes emitted by `SkippingIterator::new(e)` once its cursor is at
`cur` (`cur = 0` for a fresh iterator). -/
def skip_list (e cur : Nat) : List (Nat × Nat) := skip_list_aux e (e - cur) cur

/-- Fueled loop of `IncreasingSkippingIterator`: as `skip_list_aux` but with
`level = (e - cur).trailing_zeros()` (`step_increasing_skipping_iterator`). -/
def increasing_skip_list_aux (e : Nat) : Nat → Nat → List (Nat × Nat)
  | 0, _ => []
  | fuel+1, cur =>
    if cur < e then
      (cur + 2 ^ trailing_zeros (e - cur) - 1, trailing_zeros (e - cur)) ::
        increasing_skip_list_aux e fuel (cur + 2 ^ trailing_zeros (e - cur))
    else []

/-- All nodes emitted by `IncreasingSkippingIterator::new(cur, e)`. -/
def increasing_skip_list (e cur : Nat) : List (Nat × Nat) :=
  increasing_skip_list_aux e (e - cur) cur

/-- Fueled loop of `get_pivot`: from `i = 0`, repeat the descending step
while `i < index`; `index` units of fuel suffice. -/
def get_pivot_aux (index e : Nat) : Nat → Nat → Nat
  | 0, i => i
  | fuel+1, i =>
    if i < index then get_pivot_aux index e fuel (i + 2 ^ ilog2 (e - i)) else i

/-- `get_pivot(index, end)`. -/
def get_pivot (index e : Nat) : Nat := get_pivot_aux index e index 0

/-- `PostfixSegmentTree::prefix_sum` (requires `index ≤ len`): accumulate the
descending iterator over `[0, index)`. -/
def prefix_sum (t : PostfixSegmentTree M) (index : Nat) : M :=
  List.foldl (fun s p => s + get_node t p.1 p.2) 0 (skip_list index 0)

/-- `PostfixSegmentTree::sum` (requires `index ≤ len`,
`len_arg ≤ len - index`): ascending iterator over `[index, pivot)` then the
descending iterator over `[pivot, index + len_arg)`. -/
def sum (t : PostfixSegmentTree M) (index len_arg : Nat) : M :=
  List.foldl (fun s p => s + get_node t p.1 p.2)
    (List.foldl (fun s p => s + get_node t p.1 p.2) 0
      (increasing_skip_list (get_pivot index (index + len_arg)) index))
    (skip_list (index + len_arg) (get_pivot index (index + len_arg)))

/-- `PostfixSegmentTree::postfix_sum` (requires `index ≤ len`). -/
def postfix_sum (t : PostfixSegmentTree M) (index : Nat) : M :=
  sum t index (t.len - index)

end PostfixSegmentTree

theorem skip_list_aux_congr (e : Nat) : ∀ f₁ f₂ cur, e - cur ≤ f₁ → e - cur ≤ f₂ →
    PostfixSegmentTree.skip_list_aux e f₁ cur = PostfixSegmentTree.skip_list_aux e f₂ cur := by
  intro f₁
  induction f₁ with
  | zero =>
    intro f₂ cur h1 _
    have : ¬ cur < e := by omega
    cases f₂ <;> simp [PostfixSegmentTree.skip_list_aux, this]
  | succ f ih =>
    intro f₂ cur h1 h2
    match f₂ with
    | 0 =>
      have : ¬ cur < e := by omega
      simp [PostfixSegmentTree.skip_list_aux, this]
    | g+1 =>
      simp only [PostfixSegmentTree.skip_list_aux]
      by_cases h : cur < e
      · simp only [if_pos h]
        have hp : 1 ≤ 2 ^ ilog2 (e - cur) := Nat.one_le_two_pow
        rw [ih g (cur + 2 ^ ilog2 (e - cur)) (by omega) (by omega)]
      · simp [h]

theorem skip_list_eq (e cur : Nat) :
    PostfixSegmentTree.skip_list e cur =
      if cur < e then
        (cur + 2 ^ ilog2 (e - cur) - 1, ilog2 (e - cur)) ::
          PostfixSegmentTree.skip_list e (cur + 2 ^ ilog2 (e - cur))
      else [] := by
  by_cases h : cur < e
  · rw [if_pos h]
    unfold PostfixSegmentTree.skip_list
    have h1 : e - cur = (e - cur - 1) + 1 := by omega
    rw [h1]
    simp only [PostfixSegmentTree.skip_list_aux, if_pos h]
    rw [← h1]
    congr 1
    have hp : 1 ≤ 2 ^ ilog2 (e - cur) := Nat.one_le_two_pow
    exact skip_list_aux_congr e (e - cur - 1) (e - (cur + 2 ^ ilog2 (e - cur)))
      (cur + 2 ^ ilog2 (e - cur)) (by omega) le_rfl
  · rw [if_neg h]
    unfold PostfixSegmentTree.skip_list
    rw [(by omega : e - cur = 0)]
    rfl

theorem increasing_skip_list_aux_congr (e : Nat) : ∀ f₁ f₂ cur, e - cur ≤ f₁ → e - cur ≤ f₂ →
    PostfixSegmentTree.increasing_skip_list_aux e f₁ cur =
      PostfixSegmentTree.increasing_skip_list_aux e f₂ cur := by
  intro f₁
  induction f₁ with
  | zero =>
    intro f₂ cur h1 _
    have : ¬ cur < e := by omega
    cases f₂ <;> simp [PostfixSegmentTree.increasing_skip_list_aux, this]
  | succ f ih =>
    intro f₂ cur h1 h2
    match f₂ with
    | 0 =>
      have : ¬ cur < e := by omega
      simp [PostfixSegmentTree.increasing_skip_list_aux, this]
    | g+1 =>
      simp only [PostfixSegmentTree.increasing_skip_list_aux]
      by_cases h : cur < e
      · simp only [if_pos h]
        have hp : 1 ≤ 2 ^ trailing_zeros (e - cur) := Nat.one_le_two_pow
        rw [ih g (cur + 2 ^ trailing_zeros (e - cur)) (by omega) (by omega)]
      · simp [h]

theorem increasing_skip_list_eq (e cur : Nat) :
    PostfixSegmentTree.increasing_skip_list e cur =
      if cur < e then
        (cur + 2 ^ trailing_zeros (e - cur) - 1, trailing_zeros (e - cur)) ::
          PostfixSegmentTree.increasing_skip_list e (cur + 2 ^ trailing_zeros (e - cur))
      else [] := by
  by_cases h : cur < e
  · rw [if_pos h]
    unfold PostfixSegmentTree.increasing_skip_list
    have h1 : e - cur = (e - cur - 1) + 1 := by omega
    rw [h1]
    simp only [PostfixSegmentTree.increasing_skip_list_aux, if_pos h]
    rw [← h1]
    congr 1
    have hp : 1 ≤ 2 ^ trailing_zeros (e - cur) := Nat.one_le_two_pow
    exact increasing_skip_list_aux_congr e (e - cur - 1) (e - (cur + 2 ^ trailing_zeros (e - cur)))
      (cur + 2 ^ trailing_zeros (e - cur)) (by omega) le_rfl
  · rw [if_neg h]
    unfold PostfixSegmentTree.increasing_skip_list
    rw [(by omega : e - cur = 0)]
    rfl

theorem get_pivot_aux_congr (index e : Nat) : ∀ f₁ f₂ i, index - i ≤ f₁ → index - i ≤ f₂ →
    PostfixSegmentTree.get_pivot_aux index e f₁ i =
      PostfixSegmentTree.get_pivot_aux index e f₂ i := by
  intro f₁
  induction f₁ with
  | zero =>
    intro f₂ i h1 _
    have : ¬ i < index := by omega
    cases f₂ <;> simp [PostfixSegmentTree.get_pivot_aux, this]
  | succ f ih =>
    intro f₂ i h1 h2
    match f₂ with
    | 0 =>
      have : ¬ i < index := by omega
      simp [PostfixSegmentTree.get_pivot_aux, this]
    | g+1 =>
      simp only [PostfixSegmentTree.get_pivot_aux]
      by_cases h : i < index
      · simp only [if_pos h]
        have hp : 1 ≤ 2 ^ ilog2 (e - i) := Nat.one_le_two_pow
        rw [ih g (i + 2 ^ ilog2 (e - i)) (by omega) (by omega)]
      · simp [h]

theorem get_pivot_aux_eq (index e i fuel : Nat) (hf : index - i ≤ fuel) :
    PostfixSegmentTree.get_pivot_aux index e fuel i =
      if i < index then
        PostfixSegmentTree.get_pivot_aux index e fuel (i + 2 ^ ilog2 (e - i))
      else i := by
  by_cases h : i < index
  · have h1 : ∃ f, fuel = f + 1 := ⟨fuel - 1, by omega⟩
    obtain ⟨f, hfe⟩ := h1
    subst hfe
    simp only [PostfixSegmentTree.get_pivot_aux, if_pos h]
    have hp : 1 ≤ 2 ^ ilog2 (e - i) := Nat.one_le_two_pow
    exact get_pivot_aux_congr index e f (f+1) (i + 2 ^ ilog2 (e - i)) (by omega) (by omega)
  · cases fuel <;> simp [PostfixSegmentTree.get_pivot_aux, h]

theorem range'_append_one (s m n : Nat) :
    List.range' s m ++ List.range' (s + m) n = List.range' s (m + n) := by
  have h := List.range'_append s m n 1
  rw [Nat.one_mul] at h
  rw [h, Nat.add_comm n m]

theorem pow_lt_pow_of_lt {m n : Nat} (h : (2:Nat) ^ m < 2 ^ n) : m < n := by
  by_contra hc
  push_neg at hc
  have h2 : (2:Nat) ^ n ≤ 2 ^ m := Nat.pow_le_pow_right (by omega) hc
  omega

/-- The spans of the nodes emitted by the descending skipping iterator tile
the remaining range `[cur, e)` exactly, in order. -/
theorem skip_list_cover (e : Nat) : ∀ d cur, d = e - cur →
    ((PostfixSegmentTree.skip_list e cur).map
        (fun p => List.range' (p.1 + 1 - 2 ^ p.2) (2 ^ p.2))).flatten =
      List.range' cur (e - cur) := by
  intro d
  induction d using Nat.strong_induction_on with
  | _ d ih =>
    intro cur hd
    rw [skip_list_eq]
    by_cases h : cur < e
    · rw [if_pos h]
      have hw1 : 1 ≤ 2 ^ ilog2 (e - cur) := Nat.one_le_two_pow
      have hwle : 2 ^ ilog2 (e - cur) ≤ e - cur := pow_ilog2_le (by omega)
      simp only [List.map_cons, List.flatten_cons]
      have hhead : cur + 2 ^ ilog2 (e - cur) - 1 + 1 - 2 ^ ilog2 (e - cur) = cur := by omega
      rw [hhead]
      rw [ih (e - (cur + 2 ^ ilog2 (e - cur))) (by omega) (cur + 2 ^ ilog2 (e - cur)) rfl]
      rw [range'_append_one]
      congr 1
      omega
    · rw [if_neg h]
      have h0 : e - cur = 0 := by omega
      simp [h0]

/-- Every node emitted from cursor `cur` fits inside `[cur, e)`. -/
theorem skip_list_width_le (e : Nat) : ∀ d cur, d = e - cur →
    ∀ p ∈ PostfixSegmentTree.skip_list e cur, 2 ^ p.2 ≤ e - cur := by
  intro d
  induction d using Nat.strong_induction_on with
  | _ d ih =>
    intro cur hd p hp
    rw [skip_list_eq] at hp
    by_cases h : cur < e
    · rw [if_pos h] at hp
      have hw1 : 1 ≤ 2 ^ ilog2 (e - cur) := Nat.one_le_two_pow
      have hwle : 2 ^ ilog2 (e - cur) ≤ e - cur := pow_ilog2_le (by omega)
      rcases List.mem_cons.mp hp with h1 | h1
      · subst h1
        exact hwle
      · have := ih (e - (cur + 2 ^ ilog2 (e - cur))) (by omega) _ rfl p h1
        omega
    · rw [if_neg h] at hp
      simp at hp

/-- The levels emitted by the descending skipping iterator strictly
decrease. -/
theorem skip_list_chain (e : Nat) : ∀ d cur, d = e - cur →
    List.Chain' (fun a b : Nat × Nat => b.2 < a.2) (PostfixSegmentTree.skip_list e cur) := by
  intro d
  induction d using Nat.strong_induction_on with
  | _ d ih =>
    intro cur hd
    rw [skip_list_eq]
    by_cases h : cur < e
    · rw [if_pos h]
      have hw1 : 1 ≤ 2 ^ ilog2 (e - cur) := Nat.one_le_two_pow
      have hwle : 2 ^ ilog2 (e - cur) ≤ e - cur := pow_ilog2_le (by omega)
      rw [List.chain'_cons']
      constructor
      · intro b hb
        have hmem : b ∈ PostfixSegmentTree.skip_list e (cur + 2 ^ ilog2 (e - cur)) :=
          List.mem_of_mem_head? hb
        have hwb := skip_list_width_le e (e - (cur + 2 ^ ilog2 (e - cur)))
          (cur + 2 ^ ilog2 (e - cur)) rfl b hmem
        have hupper : e - cur < 2 ^ (ilog2 (e - cur) + 1) := lt_pow_ilog2_succ (e - cur)
        apply pow_lt_pow_of_lt
        show (2:Nat) ^ b.2 < 2 ^ ilog2 (e - cur)
        have hp2 : 2 ^ (ilog2 (e - cur) + 1) = 2 ^ ilog2 (e - cur) + 2 ^ ilog2 (e - cur) := by
          rw [pow_succ]
          ring
        omega
      · exact ih (e - (cur + 2 ^ ilog2 (e - cur))) (by omega) _ rfl
    · rw [if_neg h]
      exact List.chain'_nil

/-- C3: the descending skipping iterator constructed with parameter `end`
emits a finite sequence of nodes whose levels strictly decrease, each node
`(index, level)` covering the power-of-two leaf span
`[index - 2^level + 1, index]`; the spans are disjoint, consecutive starting
at leaf 0, and tile exactly the leaf range `[0, end)` (so the iterator stops
exactly when its cursor reaches `end`). -/
theorem C3_descending_skipping_iterator (e : Nat) :
    ((PostfixSegmentTree.skip_list e 0).map
        (fun p => List.range' (p.1 + 1 - 2 ^ p.2) (2 ^ p.2))).flatten = List.range e ∧
      List.Chain' (fun a b : Nat × Nat => b.2 < a.2) (PostfixSegmentTree.skip_list e 0) := by
  constructor
  · rw [skip_list_cover e (e - 0) 0 rfl, Nat.sub_zero, ← List.range_eq_range']
  · exact skip_list_chain e (e - 0) 0 rfl

theorem getD_of_getElem? {α : Type} {l : List α} {n : Nat} {v d : α} (h : l[n]? = some v) :
    l.getD n d = v := by
  rw [List.getD, List.get?_eq_getElem?, h]
  rfl

section Fold

variable {M : Type} [AddMonoid M]

/-- A tree represents an element list when its `len` is the list's length
and its node buffer is the canonical clean buffer of the list. -/
def Represents (t : PostfixSegmentTree M) (es : List M) : Prop :=
  t.len = es.length ∧ t.nodes = buildNodes es

theorem Represents.get_node_eq {t : PostfixSegmentTree M} {es : List M}
    (h : Represents t es) {i l : Nat} (hi : i < es.length) (hl : l ≤ trailing_ones i) :
    PostfixSegmentTree.get_node t i l = nodeVal es i l := by
  unfold PostfixSegmentTree.get_node
  rw [h.2]
  exact getD_of_getElem? (buildNodes_getElem? es hi hl)

theorem seg_split (es : List M) (cur W R : Nat) :
    (es.drop cur).take (W + R) = (es.drop cur).take W ++ (es.drop (cur + W)).take R := by
  rw [List.take_add, List.drop_drop]

/-- Accumulating the descending skipping iterator from a cursor satisfying
the alignment invariant `2 ^ (ilog2 (e - cur) + 1) ∣ cur` reads only valid
in-range nodes and totals the element segment `[cur, e)`. -/
theorem skip_list_foldl (t : PostfixSegmentTree M) (es : List M) (e : Nat)
    (hread : ∀ i l, i < e → l ≤ trailing_ones i →
      PostfixSegmentTree.get_node t i l = nodeVal es i l) :
    ∀ d cur, d = e - cur → cur ≤ e → (cur < e → 2 ^ (ilog2 (e - cur) + 1) ∣ cur) →
      ∀ a : M, List.foldl (fun s p => s + PostfixSegmentTree.get_node t p.1 p.2) a
          (PostfixSegmentTree.skip_list e cur) = a + ((es.drop cur).take (e - cur)).sum := by
  intro d
  induction d using Nat.strong_induction_on with
  | _ d ih =>
    intro cur hd hce hD a
    rw [skip_list_eq]
    by_cases h : cur < e
    · rw [if_pos h]
      have hw1 : 1 ≤ 2 ^ ilog2 (e - cur) := Nat.one_le_two_pow
      have hwle : 2 ^ ilog2 (e - cur) ≤ e - cur := pow_ilog2_le (by omega)
      have hupper : e - cur < 2 ^ (ilog2 (e - cur) + 1) := lt_pow_ilog2_succ (e - cur)
      have hdvd : 2 ^ (ilog2 (e - cur) + 1) ∣ cur := hD h
      have hdl : 2 ^ ilog2 (e - cur) ∣ cur :=
        dvd_trans (pow_dvd_pow 2 (by omega)) hdvd
      have hvalid : ilog2 (e - cur) ≤ trailing_ones (cur + 2 ^ ilog2 (e - cur) - 1) :=
        le_trailing_ones_add_pow hdl
      have hidx : cur + 2 ^ ilog2 (e - cur) - 1 < e := by omega
      simp only [List.foldl_cons]
      have hnv : PostfixSegmentTree.get_node t (cur + 2 ^ ilog2 (e - cur) - 1) (ilog2 (e - cur))
          = ((es.drop cur).take (2 ^ ilog2 (e - cur))).sum := by
        rw [hread _ _ hidx hvalid]
        unfold nodeVal
        have harg : cur + 2 ^ ilog2 (e - cur) - 1 + 1 - 2 ^ ilog2 (e - cur) = cur := by omega
        rw [harg]
      have hD' : cur + 2 ^ ilog2 (e - cur) < e →
          2 ^ (ilog2 (e - (cur + 2 ^ ilog2 (e - cur))) + 1) ∣ cur + 2 ^ ilog2 (e - cur) := by
        intro h2
        have hpow2 : (2:Nat) ^ (ilog2 (e - cur) + 1)
            = 2 ^ ilog2 (e - cur) + 2 ^ ilog2 (e - cur) := by
          rw [pow_succ]
          ring
        have hl'lt : ilog2 (e - (cur + 2 ^ ilog2 (e - cur))) < ilog2 (e - cur) := by
          apply pow_lt_pow_of_lt
          have := pow_ilog2_le (show 1 ≤ e - (cur + 2 ^ ilog2 (e - cur)) by omega)
          omega
        apply Nat.dvd_add
        · exact dvd_trans (pow_dvd_pow 2 (by omega)) hdvd
        · exact pow_dvd_pow 2 (by omega)
      rw [ih (e - (cur + 2 ^ ilog2 (e - cur))) (by omega) (cur + 2 ^ ilog2 (e - cur)) rfl
        (by omega) hD' _]
      rw [hnv]
      have h1 : e - cur = 2 ^ ilog2 (e - cur) + (e - (cur + 2 ^ ilog2 (e - cur))) := by omega
      conv_rhs => rw [h1, seg_split]
      rw [List.sum_append, add_assoc]
    · rw [if_neg h]
      have h0 : e - cur = 0 := by omega
      simp [h0]

/-- Accumulating the ascending skipping iterator from any cursor satisfying
`e - cur ≤ 2 ^ trailing_zeros e` (the `min_reachable_index_for_elements`
precondition) reads only valid in-range nodes and totals `[cur, e)`. -/
theorem increasing_skip_list_foldl (t : PostfixSegmentTree M) (es : List M) (e : Nat)
    (hread : ∀ i l, i < e → l ≤ trailing_ones i →
      PostfixSegmentTree.get_node t i l = nodeVal es i l) :
    ∀ d cur, d = e - cur → cur ≤ e → e - cur ≤ 2 ^ trailing_zeros e →
      ∀ a : M, List.foldl (fun s p => s + PostfixSegmentTree.get_node t p.1 p.2) a
          (PostfixSegmentTree.increasing_skip_list e cur)
        = a + ((es.drop cur).take (e - cur)).sum := by
  intro d
  induction d using Nat.strong_induction_on with
  | _ d ih =>
    intro cur hd hce hA a
    rw [increasing_skip_list_eq]
    by_cases h : cur < e
    · rw [if_pos h]
      have hw1 : 1 ≤ 2 ^ trailing_zeros (e - cur) := Nat.one_le_two_pow
      have hwle : 2 ^ trailing_zeros (e - cur) ≤ e - cur := pow_trailing_zeros_le (by omega)
      have hlle : trailing_zeros (e - cur) ≤ trailing_zeros e := by
        have h1 : (2:Nat) ^ trailing_zeros (e - cur) ≤ 2 ^ trailing_zeros e := by omega
        by_contra hc
        push_neg at hc
        have := Nat.pow_lt_pow_right (show 1 < 2 by omega) hc
        omega
      have hdvd_e : 2 ^ trailing_zeros (e - cur) ∣ e := pow_dvd_of_le_trailing_zeros hlle
      have hdvd_d : 2 ^ trailing_zeros (e - cur) ∣ e - cur := pow_trailing_zeros_dvd (e - cur)
      have hdl : 2 ^ trailing_zeros (e - cur) ∣ cur := by
        have h2 := Nat.dvd_sub' hdvd_e hdvd_d
        have h3 : e - (e - cur) = cur := by omega
        rwa [h3] at h2
      have hvalid : trailing_zeros (e - cur)
          ≤ trailing_ones (cur + 2 ^ trailing_zeros (e - cur) - 1) :=
        le_trailing_ones_add_pow hdl
      have hidx : cur + 2 ^ trailing_zeros (e - cur) - 1 < e := by omega
      simp only [List.foldl_cons]
      have hnv : PostfixSegmentTree.get_node t (cur + 2 ^ trailing_zeros (e - cur) - 1)
            (trailing_zeros (e - cur))
          = ((es.drop cur).take (2 ^ trailing_zeros (e - cur))).sum := by
        rw [hread _ _ hidx hvalid]
        unfold nodeVal
        have harg : cur + 2 ^ trailing_zeros (e - cur) - 1 + 1 - 2 ^ trailing_zeros (e - cur)
            = cur := by omega
        rw [harg]
      rw [ih (e - (cur + 2 ^ trailing_zeros (e - cur))) (by omega)
        (cur + 2 ^ trailing_zeros (e - cur)) rfl (by omega) (by omega) _]
      rw [hnv]
      have h1 : e - cur
          = 2 ^ trailing_zeros (e - cur) + (e - (cur + 2 ^ trailing_zeros (e - cur))) := by
        omega
      conv_rhs => rw [h1, seg_split]
      rw [List.sum_append, add_assoc]
    · rw [if_neg h]
      have h0 : e - cur = 0 := by omega
      simp [h0]

end Fold

theorem get_pivot_aux_stop {index e fuel i : Nat} (h : ¬ i < index) :
    PostfixSegmentTree.get_pivot_aux index e fuel i = i := by
  cases fuel <;> simp [PostfixSegmentTree.get_pivot_aux, h]

/-- The specification of `get_pivot` (the `TODO: PROOF` of
`skipping_iterator.rs`): the pivot lies in `[index, e]`, the descending
decomposition of `[pivot, e)` is well aligned there, and
`min_reachable_index_for_elements(pivot) ≤ index`, i.e.
`pivot - index ≤ 2 ^ pivot.trailing_zeros()`. -/
theorem get_pivot_aux_spec (index e : Nat) (hie : index ≤ e) :
    ∀ fuel i, index - i ≤ fuel → i ≤ index →
      (i < e → 2 ^ (ilog2 (e - i) + 1) ∣ i) →
      index ≤ PostfixSegmentTree.get_pivot_aux index e fuel i ∧
        PostfixSegmentTree.get_pivot_aux index e fuel i ≤ e ∧
        (PostfixSegmentTree.get_pivot_aux index e fuel i < e →
          2 ^ (ilog2 (e - PostfixSegmentTree.get_pivot_aux index e fuel i) + 1) ∣
            PostfixSegmentTree.get_pivot_aux index e fuel i) ∧
        PostfixSegmentTree.get_pivot_aux index e fuel i - index ≤
          2 ^ trailing_zeros (PostfixSegmentTree.get_pivot_aux index e fuel i) := by
  intro fuel
  induction fuel with
  | zero =>
    intro i hf hi hD
    have h : ¬ i < index := by omega
    rw [get_pivot_aux_stop h]
    refine ⟨by omega, by omega, hD, ?_⟩
    have h0 : i - index = 0 := by omega
    rw [h0]
    exact Nat.zero_le _
  | succ f ih =>
    intro i hf hi hD
    by_cases h : i < index
    · simp only [PostfixSegmentTree.get_pivot_aux, if_pos h]
      have hlt_e : i < e := by omega
      have hw1 : 1 ≤ 2 ^ ilog2 (e - i) := Nat.one_le_two_pow
      have hwle : 2 ^ ilog2 (e - i) ≤ e - i := pow_ilog2_le (by omega)
      have hupper : e - i < 2 ^ (ilog2 (e - i) + 1) := lt_pow_ilog2_succ (e - i)
      have hdvd : 2 ^ (ilog2 (e - i) + 1) ∣ i := hD hlt_e
      have hD' : i + 2 ^ ilog2 (e - i) < e →
          2 ^ (ilog2 (e - (i + 2 ^ ilog2 (e - i))) + 1) ∣ i + 2 ^ ilog2 (e - i) := by
        intro h2
        have hpow2 : (2:Nat) ^ (ilog2 (e - i) + 1) = 2 ^ ilog2 (e - i) + 2 ^ ilog2 (e - i) := by
          rw [pow_succ]
          ring
        have hl'lt : ilog2 (e - (i + 2 ^ ilog2 (e - i))) < ilog2 (e - i) := by
          apply pow_lt_pow_of_lt
          have := pow_ilog2_le (show 1 ≤ e - (i + 2 ^ ilog2 (e - i)) by omega)
          omega
        apply Nat.dvd_add
        · exact dvd_trans (pow_dvd_pow 2 (by omega)) hdvd
        · exact pow_dvd_pow 2 (by omega)
      by_cases h2 : i + 2 ^ ilog2 (e - i) < index
      · exact ih (i + 2 ^ ilog2 (e - i)) (by omega) (by omega) hD'
      · rw [get_pivot_aux_stop h2]
        have hdl : 2 ^ ilog2 (e - i) ∣ i := dvd_trans (pow_dvd_pow 2 (by omega)) hdvd
        have hdp : 2 ^ ilog2 (e - i) ∣ i + 2 ^ ilog2 (e - i) := Nat.dvd_add hdl dvd_rfl
        have htz : ilog2 (e - i) ≤ trailing_zeros (i + 2 ^ ilog2 (e - i)) :=
          le_trailing_zeros_of_pow_dvd (by omega) hdp
        have hmono : (2:Nat) ^ ilog2 (e - i) ≤ 2 ^ trailing_zeros (i + 2 ^ ilog2 (e - i)) :=
          Nat.pow_le_pow_right (by omega) htz
        exact ⟨by omega, by omega, hD', by omega⟩
    · rw [get_pivot_aux_stop h]
      refine ⟨by omega, by omega, hD, ?_⟩
      have h0 : i - index = 0 := by omega
      rw [h0]
      exact Nat.zero_le _

theorem get_pivot_spec (index e : Nat) (hie : index ≤ e) :
    index ≤ PostfixSegmentTree.get_pivot index e ∧
      PostfixSegmentTree.get_pivot index e ≤ e ∧
      (PostfixSegmentTree.get_pivot index e < e →
        2 ^ (ilog2 (e - PostfixSegmentTree.get_pivot index e) + 1) ∣
          PostfixSegmentTree.get_pivot index e) ∧
      PostfixSegmentTree.get_pivot index e - index ≤
        2 ^ trailing_zeros (PostfixSegmentTree.get_pivot index e) := by
  exact get_pivot_aux_spec index e hie index 0 (by omega) (by omega)
    (by intro; exact Dvd.intro 0 rfl)

theorem getD_set_ne {α : Type} (l : List α) {m n : Nat} (v d : α) (h : m ≠ n) :
    (l.set m v).getD n d = l.getD n d := by
  rw [List.getD, List.getD, List.get?_eq_getElem?, List.get?_eq_getElem?,
    List.getElem?_set_ne h]

theorem getD_set_self {α : Type} (l : List α) {n : Nat} (v d : α) (h : n < l.length) :
    (l.set n v).getD n d = v := by
  have : (l.set n v)[n]? = some v := by
    rw [List.getElem?_set_self]
    omega
  exact getD_of_getElem? this

theorem getD_append_left {α : Type} (l₁ l₂ : List α) {n : Nat} (d : α) (h : n < l₁.length) :
    (l₁ ++ l₂).getD n d = l₁.getD n d := by
  rw [List.getD, List.getD, List.get?_eq_getElem?, List.get?_eq_getElem?,
    List.getElem?_append_left h]

theorem getD_take_of_lt {α : Type} (l : List α) {k n : Nat} (d : α) (h : n < k) :
    (l.take k).getD n d = l.getD n d := by
  rw [List.getD, List.getD, List.get?_eq_getElem?, List.get?_eq_getElem?,
    List.getElem?_take_of_lt h]

theorem getElem?_eq_some_getD {α : Type} (l : List α) (d : α) {n : Nat} (h : n < l.length) :
    l[n]? = some (l.getD n d) := by
  rw [List.getElem?_eq_getElem h]
  congr 1
  exact (getD_of_getElem? (List.getElem?_eq_getElem h)).symm

section Mutation

variable {M : Type} [AddMonoid M]

/-- Slot `(i, l)` of the buffer holds the clean value for `es`. -/
def CleanAt (t : PostfixSegmentTree M) (es : List M) (i l : Nat) : Prop :=
  t.nodes.getD (node_index i l) 0 = nodeVal es i l

/-- Node `(i, l)` covers leaf `idx` (its span `[i - 2^l + 1, i]` contains
`idx`). -/
def IsAncestor (idx i l : Nat) : Prop := idx ≤ i ∧ i - idx < 2 ^ l

theorem Represents.cleanAt {t : PostfixSegmentTree M} {es : List M} (h : Represents t es)
    {i l : Nat} (hi : i < t.len) (hl : l ≤ trailing_ones i) : CleanAt t es i l := by
  unfold CleanAt
  rw [h.2]
  exact getD_of_getElem? (buildNodes_getElem? es (h.1 ▸ hi) hl)

theorem Represents.nodes_length {t : PostfixSegmentTree M} {es : List M}
    (h : Represents t es) : t.nodes.length = get_nodes_len_for t.len := by
  rw [h.2, length_buildNodes, h.1]

/-- If every valid slot is clean, the buffer is the canonical one. -/
theorem represents_of_all_clean {t : PostfixSegmentTree M} {es : List M}
    (hlen : t.len = es.length)
    (hnlen : t.nodes.length = get_nodes_len_for t.len)
    (hclean : ∀ i l, i < t.len → l ≤ trailing_ones i → CleanAt t es i l) :
    Represents t es := by
  refine ⟨hlen, ?_⟩
  apply List.ext_getElem?
  intro n
  by_cases hn : n < t.nodes.length
  · obtain ⟨i, l, hi, hl, hs⟩ := slot_decomp (show n < get_nodes_len_for t.len from hnlen ▸ hn)
    subst hs
    rw [buildNodes_getElem? es (hlen ▸ hi) hl]
    rw [getElem?_eq_some_getD t.nodes 0 hn]
    congr 1
    exact hclean i l hi hl
  · rw [List.getElem?_eq_none (by omega), List.getElem?_eq_none]
    rw [length_buildNodes, ← hlen, ← hnlen]
    omega

theorem node_index_ne {i l i' l' : Nat} (hl : l ≤ trailing_ones i)
    (hl' : l' ≤ trailing_ones i') (h : ¬ (i = i' ∧ l = l')) :
    node_index i l ≠ node_index i' l' := by
  intro he
  exact h ⟨(node_index_inj_aux hl hl' he).1, (node_index_inj_aux hl hl' he).2⟩

/-- `recalculate_node` writes the clean value of `(i, l)` from its two clean
children and changes no other valid slot. -/
theorem recalculate_node_spec {t : PostfixSegmentTree M} {es : List M} {i l : Nat}
    (hlen : t.len = es.length) (hnlen : t.nodes.length = get_nodes_len_for t.len)
    (hi : i < t.len) (hl1 : 1 ≤ l) (hl : l ≤ trailing_ones i)
    (hleft : CleanAt t es (i - 2 ^ (l - 1)) (l - 1))
    (hright : CleanAt t es i (l - 1)) :
    (PostfixSegmentTree.recalculate_node t i l).len = t.len ∧
      (PostfixSegmentTree.recalculate_node t i l).nodes.length = t.nodes.length ∧
      CleanAt (PostfixSegmentTree.recalculate_node t i l) es i l ∧
      ∀ i' l', l' ≤ trailing_ones i' → ¬ (i' = i ∧ l' = l) →
        (PostfixSegmentTree.recalculate_node t i l).nodes.getD (node_index i' l') 0 =
          t.nodes.getD (node_index i' l') 0 := by
  have hw : 2 ^ l ≤ i + 1 := pow_le_succ_of_le_trailing_ones hl
  have hbound : node_index i l < t.nodes.length := by
    rw [hnlen]
    exact Nat.lt_of_lt_of_le (node_index_lt_of_level_le hl)
      (get_nodes_len_for_le (by omega))
  refine ⟨rfl, by simp [PostfixSegmentTree.recalculate_node], ?_, ?_⟩
  · unfold CleanAt PostfixSegmentTree.recalculate_node
    simp only
    rw [getD_set_self _ _ _ hbound]
    unfold PostfixSegmentTree.get_node
    unfold CleanAt at hleft hright
    rw [hleft, hright, zero_add, ← nodeVal_split hl1 hw]
  · intro i' l' hl' hne
    unfold PostfixSegmentTree.recalculate_node
    simp only
    exact getD_set_ne _ _ _ (node_index_ne hl hl' (by tauto))

end Mutation

theorem trailing_ones_left_child {i l : Nat} (hl1 : 1 ≤ l) (hl : l ≤ trailing_ones i) :
    l - 1 ≤ trailing_ones (i - 2 ^ (l - 1)) := by
  have hw : 2 ^ l ≤ i + 1 := pow_le_succ_of_le_trailing_ones hl
  have hpow : (2:Nat) ^ l = 2 ^ (l - 1) + 2 ^ (l - 1) := by
    have h2 : 2 ^ (l - 1 + 1) = 2 ^ (l - 1) * 2 := pow_succ 2 (l - 1)
    have h3 : l - 1 + 1 = l := by omega
    rw [h3] at h2
    omega
  have hdvd : 2 ^ (l - 1) ∣ i + 1 :=
    dvd_trans (pow_dvd_pow 2 (by omega)) (dvd_trans (pow_dvd_pow 2 hl) (pow_trailing_ones_dvd i))
  apply le_trailing_ones_of_pow_dvd
  have harg : i - 2 ^ (l - 1) + 1 = (i + 1) - 2 ^ (l - 1) := by omega
  rw [harg]
  exact Nat.dvd_sub' hdvd dvd_rfl

section BulkRecalc

variable {M : Type} [AddMonoid M]

/-- Partial progress of the per-leaf level loop of the bulk recalculation:
after recalculating levels `1..m` of leaf `i`, those slots are clean and
nothing else moved. -/
theorem recalc_chain_partial {t : PostfixSegmentTree M} {es : List M} {i : Nat}
    (hlen : t.len = es.length) (hnlen : t.nodes.length = get_nodes_len_for t.len)
    (hi : i < t.len)
    (hleaves : ∀ j, j < t.len → CleanAt t es j 0)
    (hbelow : ∀ i' l', i' < i → 1 ≤ l' → l' ≤ trailing_ones i' → CleanAt t es i' l') :
    ∀ m, m ≤ trailing_ones i →
      (List.foldl (fun s l => PostfixSegmentTree.recalculate_node s i l) t
          (List.range' 1 m)).len = t.len ∧
      (List.foldl (fun s l => PostfixSegmentTree.recalculate_node s i l) t
          (List.range' 1 m)).nodes.length = t.nodes.length ∧
      (∀ j, j < t.len → CleanAt (List.foldl
          (fun s l => PostfixSegmentTree.recalculate_node s i l) t (List.range' 1 m)) es j 0) ∧
      (∀ i' l', i' < i → 1 ≤ l' → l' ≤ trailing_ones i' → CleanAt (List.foldl
          (fun s l => PostfixSegmentTree.recalculate_node s i l) t (List.range' 1 m)) es i' l') ∧
      (∀ l', 1 ≤ l' → l' ≤ m → CleanAt (List.foldl
          (fun s l => PostfixSegmentTree.recalculate_node s i l) t (List.range' 1 m)) es i l') := by
  intro m
  induction m with
  | zero =>
    intro
    exact ⟨rfl, rfl, hleaves, hbelow, by omega⟩
  | succ m ih =>
    intro hm
    obtain ⟨ih1, ih2, ih3, ih4, ih5⟩ := ih (by omega)
    rw [List.range'_1_concat, List.foldl_append, List.foldl_cons, List.foldl_nil]
    set r := List.foldl (fun s l => PostfixSegmentTree.recalculate_node s i l) t
      (List.range' 1 m) with hr
    have hi0 : 1 ≤ i := by
      by_contra hc
      have hz : i = 0 := by omega
      rw [hz] at hm
      have : trailing_ones 0 = 0 := rfl
      omega
    have hw : 2 ^ (1 + m) ≤ i + 1 :=
      pow_le_succ_of_le_trailing_ones (show 1 + m ≤ trailing_ones i by omega)
    have hp1 : (1:Nat) ≤ 2 ^ m := Nat.one_le_two_pow
    have hleft : CleanAt r es (i - 2 ^ (1 + m - 1)) (1 + m - 1) := by
      have hred : 1 + m - 1 = m := by omega
      rw [hred]
      rcases Nat.eq_zero_or_pos m with hm0 | hm0
      · subst hm0
        exact ih3 (i - 2 ^ 0) (by omega)
      · apply ih4
        · have : (2:Nat) ^ m ≤ i := by
            have h2 : (2:Nat) ^ (1 + m) = 2 ^ m + 2 ^ m := by
              rw [Nat.add_comm 1 m, pow_succ]
              ring
            omega
          omega
        · omega
        · exact trailing_ones_left_child (by omega)
            (show m + 1 ≤ trailing_ones i by omega)
    have hright : CleanAt r es i (1 + m - 1) := by
      have hred : 1 + m - 1 = m := by omega
      rw [hred]
      rcases Nat.eq_zero_or_pos m with hm0 | hm0
      · subst hm0
        exact ih3 i hi
      · exact ih5 m hm0 le_rfl
    have hspec := recalculate_node_spec (i := i) (l := 1 + m)
      (show _ = es.length by rw [ih1]; exact hlen) (by rw [ih2, ih1]; exact hnlen)
      (by omega) (by omega) (by omega : 1 + m ≤ trailing_ones i) hleft hright
    obtain ⟨s1, s2, s3, s4⟩ := hspec
    refine ⟨by rw [s1, ih1], by rw [s2, ih2], ?_, ?_, ?_⟩
    · intro j hj
      unfold CleanAt
      rw [s4 j 0 (Nat.zero_le _) (by omega)]
      exact ih3 j hj
    · intro i' l' hi' hl1' hl'
      unfold CleanAt
      rw [s4 i' l' hl' (by omega)]
      exact ih4 i' l' hi' hl1' hl'
    · intro l' hl1' hl'
      rcases Nat.lt_or_ge l' (m + 1) with hcase | hcase
      · unfold CleanAt
        rw [s4 i l' (by omega) (by omega)]
        exact ih5 l' hl1' (by omega)
      · have : l' = 1 + m := by omega
        subst this
        exact s3

/-- The per-leaf chain loop of the bulk recalculation: afterwards all of
leaf `i`'s internal levels are clean too. -/
theorem recalc_chain_spec {t : PostfixSegmentTree M} {es : List M} {i : Nat}
    (hlen : t.len = es.length) (hnlen : t.nodes.length = get_nodes_len_for t.len)
    (hi : i < t.len)
    (hleaves : ∀ j, j < t.len → CleanAt t es j 0)
    (hbelow : ∀ i' l', i' < i → 1 ≤ l' → l' ≤ trailing_ones i' → CleanAt t es i' l') :
    (PostfixSegmentTree.recalc_chain t i).len = t.len ∧
      (PostfixSegmentTree.recalc_chain t i).nodes.length = t.nodes.length ∧
      (∀ j, j < t.len → CleanAt (PostfixSegmentTree.recalc_chain t i) es j 0) ∧
      (∀ i' l', i' < i + 1 → 1 ≤ l' → l' ≤ trailing_ones i' →
        CleanAt (PostfixSegmentTree.recalc_chain t i) es i' l') := by
  obtain ⟨h1, h2, h3, h4, h5⟩ := recalc_chain_partial hlen hnlen hi hleaves hbelow
    (trailing_ones i) le_rfl
  have hml : get_max_level_from_index i = trailing_ones i := rfl
  unfold PostfixSegmentTree.recalc_chain
  rw [hml]
  refine ⟨h1, h2, h3, ?_⟩
  intro i' l' hi' hl1' hl'
  rcases Nat.lt_or_ge i' i with hcase | hcase
  · exact h4 i' l' hcase hl1' hl'
  · have : i' = i := by omega
    subst this
    exact h5 l' hl1' hl'

/-- Partial progress of the outer loop of
`recalculate_nodes_after_bulk_update` over leaves `id..id+m`. -/
theorem recalc_bulk_partial {t : PostfixSegmentTree M} {es : List M} {id : Nat}
    (hlen : t.len = es.length) (hnlen : t.nodes.length = get_nodes_len_for t.len)
    (hleaves : ∀ j, j < t.len → CleanAt t es j 0)
    (hbelow : ∀ i' l', i' < id → 1 ≤ l' → l' ≤ trailing_ones i' → CleanAt t es i' l') :
    ∀ m, id + m ≤ t.len →
      (List.foldl (fun s i => PostfixSegmentTree.recalc_chain s i) t
          (List.range' id m)).len = t.len ∧
      (List.foldl (fun s i => PostfixSegmentTree.recalc_chain s i) t
          (List.range' id m)).nodes.length = t.nodes.length ∧
      (∀ j, j < t.len → CleanAt (List.foldl
          (fun s i => PostfixSegmentTree.recalc_chain s i) t (List.range' id m)) es j 0) ∧
      (∀ i' l', i' < id + m → 1 ≤ l' → l' ≤ trailing_ones i' → CleanAt (List.foldl
          (fun s i => PostfixSegmentTree.recalc_chain s i) t (List.range' id m)) es i' l') := by
  intro m
  induction m with
  | zero =>
    intro
    exact ⟨rfl, rfl, hleaves, hbelow⟩
  | succ m ih =>
    intro hm
    obtain ⟨ih1, ih2, ih3, ih4⟩ := ih (by omega)
    rw [List.range'_1_concat, List.foldl_append, List.foldl_cons, List.foldl_nil]
    set r := List.foldl (fun s i => PostfixSegmentTree.recalc_chain s i) t
      (List.range' id m) with hr
    have hspec := recalc_chain_spec (t := r) (i := id + m)
      (show r.len = es.length by rw [ih1]; exact hlen) (by rw [ih2, ih1]; exact hnlen)
      (by omega) (by intro j hj; exact ih3 j (by omega))
      (by intro i' l' hi' hl1' hl'; exact ih4 i' l' (by omega) hl1' hl')
    obtain ⟨s1, s2, s3, s4⟩ := hspec
    rw [ih1] at s1
    rw [ih2] at s2
    refine ⟨s1, s2, ?_, ?_⟩
    · intro j hj
      exact s3 j (by omega)
    · intro i' l' hi' hl1' hl'
      exact s4 i' l' (by omega) hl1' hl'

/-- `recalculate_nodes_after_bulk_update` restores the full invariant from
clean leaves and clean internal nodes below `id`. -/
theorem recalculate_nodes_after_bulk_update_spec {t : PostfixSegmentTree M} {es : List M}
    {id : Nat} (hid : id ≤ t.len)
    (hlen : t.len = es.length) (hnlen : t.nodes.length = get_nodes_len_for t.len)
    (hleaves : ∀ j, j < t.len → CleanAt t es j 0)
    (hbelow : ∀ i' l', i' < id → 1 ≤ l' → l' ≤ trailing_ones i' → CleanAt t es i' l') :
    Represents (PostfixSegmentTree.recalculate_nodes_after_bulk_update t id) es ∧
      (PostfixSegmentTree.recalculate_nodes_after_bulk_update t id).len = t.len := by
  obtain ⟨h1, h2, h3, h4⟩ := recalc_bulk_partial hlen hnlen hleaves hbelow (t.len - id)
    (by omega)
  unfold PostfixSegmentTree.recalculate_nodes_after_bulk_update
  refine ⟨represents_of_all_clean (by rw [h1]; exact hlen) (by rw [h2, h1]; exact hnlen) ?_, h1⟩
  intro i l hi hl
  have hi2 : i < t.len := h1 ▸ hi
  rcases Nat.eq_zero_or_pos l with hl0 | hl0
  · subst hl0
    exact h3 i hi2
  · exact h4 i l (by omega) hl0 hl

end BulkRecalc

section UpdRecalc

variable {M : Type} [AddMonoid M]

/-- The inner level loop of the chained ancestor walk: recalculating levels
`cl .. cl+k-1` of leaf `i` cleans exactly those ancestor slots of `idx` and
moves nothing else.  All recalculated nodes are ancestors of `idx` because
`i - idx < 2 ^ cl`. -/
theorem recalc_levels_spec {es : List M} (idx : Nat) :
    ∀ k (t : PostfixSegmentTree M) (i cl : Nat),
      t.len = es.length → t.nodes.length = get_nodes_len_for t.len →
      i < t.len → 1 ≤ cl → cl + k ≤ trailing_ones i + 1 →
      idx ≤ i → i - idx < 2 ^ cl →
      (∀ j, j < t.len → CleanAt t es j 0) →
      (∀ i' l', i' < t.len → 1 ≤ l' → l' ≤ trailing_ones i' → ¬ IsAncestor idx i' l' →
        CleanAt t es i' l') →
      (∀ i' l', i' < t.len → 1 ≤ l' → l' ≤ trailing_ones i' → IsAncestor idx i' l' →
        (i' < i ∨ (i' = i ∧ l' < cl)) → CleanAt t es i' l') →
      (PostfixSegmentTree.recalc_levels t i cl k).len = t.len ∧
        (PostfixSegmentTree.recalc_levels t i cl k).nodes.length = t.nodes.length ∧
        (∀ j, j < t.len → CleanAt (PostfixSegmentTree.recalc_levels t i cl k) es j 0) ∧
        (∀ i' l', i' < t.len → 1 ≤ l' → l' ≤ trailing_ones i' → ¬ IsAncestor idx i' l' →
          CleanAt (PostfixSegmentTree.recalc_levels t i cl k) es i' l') ∧
        (∀ i' l', i' < t.len → 1 ≤ l' → l' ≤ trailing_ones i' → IsAncestor idx i' l' →
          (i' < i ∨ (i' = i ∧ l' < cl + k)) →
          CleanAt (PostfixSegmentTree.recalc_levels t i cl k) es i' l') := by
  intro k
  induction k with
  | zero =>
    intro t i cl h1 h2 h3 h4 h5 h6 h7 hleaves hnonanc hdone
    exact ⟨rfl, rfl, hleaves, hnonanc, hdone⟩
  | succ k ih =>
    intro t i cl hlen hnlen hi hcl1 hclk hidx hdiff hleaves hnonanc hdone
    show _ ∧ _
    have hclto : cl ≤ trailing_ones i := by omega
    have hanc_i_cl : IsAncestor idx i cl := ⟨hidx, hdiff⟩
    have hw : 2 ^ cl ≤ i + 1 := pow_le_succ_of_le_trailing_ones hclto
    have hp1 : (1:Nat) ≤ 2 ^ (cl - 1) := Nat.one_le_two_pow
    have hpow : (2:Nat) ^ cl = 2 ^ (cl - 1) + 2 ^ (cl - 1) := by
      have h2 : 2 ^ (cl - 1 + 1) = 2 ^ (cl - 1) * 2 := pow_succ 2 (cl - 1)
      have h3 : cl - 1 + 1 = cl := by omega
      rw [h3] at h2
      omega
    have hileft_lt : i - 2 ^ (cl - 1) < i := by omega
    have hleft : CleanAt t es (i - 2 ^ (cl - 1)) (cl - 1) := by
      rcases Nat.eq_zero_or_pos (cl - 1) with hc0 | hc0
      · rw [hc0]
        exact hleaves _ (by omega)
      · have hvalid := trailing_ones_left_child hcl1 hclto
        by_cases hanc : IsAncestor idx (i - 2 ^ (cl - 1)) (cl - 1)
        · exact hdone _ _ (by omega) hc0 hvalid hanc (Or.inl hileft_lt)
        · exact hnonanc _ _ (by omega) hc0 hvalid hanc
    have hright : CleanAt t es i (cl - 1) := by
      rcases Nat.eq_zero_or_pos (cl - 1) with hc0 | hc0
      · rw [hc0]
        exact hleaves _ hi
      · have hvalid : cl - 1 ≤ trailing_ones i := by omega
        by_cases hanc : IsAncestor idx i (cl - 1)
        · exact hdone _ _ hi hc0 hvalid hanc (Or.inr ⟨rfl, by omega⟩)
        · exact hnonanc _ _ hi hc0 hvalid hanc
    obtain ⟨s1, s2, s3, s4⟩ :=
      recalculate_node_spec hlen hnlen hi hcl1 hclto hleft hright
    have hstep := ih (PostfixSegmentTree.recalculate_node t i cl) i (cl + 1)
      (by rw [s1]; exact hlen) (by rw [s2, s1]; exact hnlen)
      (by rw [s1]; exact hi) (by omega) (by omega) hidx
      (by
        have : (2:Nat) ^ cl ≤ 2 ^ (cl + 1) := Nat.pow_le_pow_right (by omega) (by omega)
        omega)
      (by
        intro j hj
        unfold CleanAt
        rw [s4 j 0 (Nat.zero_le _) (by omega)]
        exact hleaves j (by rw [s1] at hj; exact hj))
      (by
        intro i' l' hi' hl1' hl' hanc
        unfold CleanAt
        have hne : ¬ (i' = i ∧ l' = cl) := by
          rintro ⟨he1, he2⟩
          subst he1
          subst he2
          exact hanc hanc_i_cl
        rw [s4 i' l' hl' hne]
        exact hnonanc i' l' (by rw [s1] at hi'; exact hi') hl1' hl' hanc)
      (by
        intro i' l' hi' hl1' hl' hanc hpos
        by_cases hcase : i' = i ∧ l' = cl
        · obtain ⟨he1, he2⟩ := hcase
          subst he1
          subst he2
          exact s3
        · unfold CleanAt
          rw [s4 i' l' hl' hcase]
          apply hdone i' l' (by rw [s1] at hi'; exact hi') hl1' hl' hanc
          rcases hpos with hp | ⟨hp1', hp2⟩
          · exact Or.inl hp
          · subst hp1'
            rcases Nat.lt_or_ge l' cl with hc | hc
            · exact Or.inr ⟨rfl, hc⟩
            · exfalso
              exact hcase ⟨rfl, by omega⟩)
    obtain ⟨r1, r2, r3, r4, r5⟩ := hstep
    rw [s1] at r1 r3 r4 r5
    rw [s2] at r2
    refine ⟨r1, r2, r3, r4, ?_⟩
    intro i' l' hi' hl1' hl' hanc hpos
    apply r5 i' l' hi' hl1' hl' hanc
    rcases hpos with hp | ⟨hp1', hp2⟩
    · exact Or.inl hp
    · exact Or.inr ⟨hp1', by omega⟩

end UpdRecalc

section UpdRecalc2

variable {M : Type} [AddMonoid M]

theorem recalc_upd_aux_succ (fuel : Nat) (t : PostfixSegmentTree M) (ci cl : Nat) :
    PostfixSegmentTree.recalc_upd_aux (fuel+1) t ci cl =
      if ci < t.len then
        PostfixSegmentTree.recalc_upd_aux fuel
          (PostfixSegmentTree.recalc_levels t ci cl (get_max_level_from_index ci + 1 - cl))
          (ci + 2 ^ (max cl (get_max_level_from_index ci + 1) - 1))
          (max cl (get_max_level_from_index ci + 1))
      else t := rfl

/-- The outer loop of the chained ancestor walk: starting from a state where
the only stale internal slots are ancestors of `idx` at or after the cursor,
it restores the full invariant.  The walk-state invariant is
`idx ≤ ci`, `1 ≤ cl ≤ trailing_ones ci + 1`, `ci - idx < 2 ^ cl`, and
`ci = idx ∨ cl ≤ trailing_ones ci`. -/
theorem recalc_upd_aux_spec {es : List M} (idx : Nat) :
    ∀ fuel (t : PostfixSegmentTree M) (ci cl : Nat),
      t.len ≤ ci + fuel →
      t.len = es.length → t.nodes.length = get_nodes_len_for t.len →
      idx ≤ ci → 1 ≤ cl → cl ≤ trailing_ones ci + 1 → ci - idx < 2 ^ cl →
      (ci = idx ∨ cl ≤ trailing_ones ci) →
      (∀ j, j < t.len → CleanAt t es j 0) →
      (∀ i' l', i' < t.len → 1 ≤ l' → l' ≤ trailing_ones i' → ¬ IsAncestor idx i' l' →
        CleanAt t es i' l') →
      (∀ i' l', i' < t.len → 1 ≤ l' → l' ≤ trailing_ones i' → IsAncestor idx i' l' →
        (i' < ci ∨ (i' = ci ∧ l' < cl)) → CleanAt t es i' l') →
      Represents (PostfixSegmentTree.recalc_upd_aux fuel t ci cl) es ∧
        (PostfixSegmentTree.recalc_upd_aux fuel t ci cl).len = t.len := by
  intro fuel
  induction fuel with
  | zero =>
    intro t ci cl hfuel hlen hnlen hidx hcl1 hclto hdiff hW hleaves hnonanc hdone
    show Represents t es ∧ t.len = t.len
    refine ⟨represents_of_all_clean hlen hnlen ?_, rfl⟩
    intro i l hi hl
    rcases Nat.eq_zero_or_pos l with hl0 | hl0
    · subst hl0
      exact hleaves i hi
    · by_cases hanc : IsAncestor idx i l
      · exact hdone i l hi hl0 hl hanc (Or.inl (by omega))
      · exact hnonanc i l hi hl0 hl hanc
  | succ fuel ih =>
    intro t ci cl hfuel hlen hnlen hidx hcl1 hclto hdiff hW hleaves hnonanc hdone
    rw [recalc_upd_aux_succ]
    by_cases h : ci < t.len
    · rw [if_pos h]
      have hml : get_max_level_from_index ci = trailing_ones ci := rfl
      rw [hml]
      have hmax : max cl (trailing_ones ci + 1) = trailing_ones ci + 1 :=
        Nat.max_eq_right (by omega)
      rw [hmax]
      have hred : trailing_ones ci + 1 - 1 = trailing_ones ci := by omega
      rw [hred]
      obtain ⟨L1, L2, L3, L4, L5⟩ := recalc_levels_spec idx (trailing_ones ci + 1 - cl) t ci cl
        hlen hnlen h hcl1 (by omega) hidx hdiff hleaves hnonanc hdone
      have hclk : cl + (trailing_ones ci + 1 - cl) = trailing_ones ci + 1 := by omega
      rw [hclk] at L5
      have hp1 : (1:Nat) ≤ 2 ^ trailing_ones ci := Nat.one_le_two_pow
      have hto' : trailing_ones ci + 1 ≤ trailing_ones (ci + 2 ^ trailing_ones ci) :=
        trailing_ones_add_pow_self ci
      have hdiff' : ci + 2 ^ trailing_ones ci - idx < 2 ^ (trailing_ones ci + 1) := by
        have hpow : (2:Nat) ^ (trailing_ones ci + 1)
            = 2 ^ trailing_ones ci + 2 ^ trailing_ones ci := by
          rw [pow_succ]
          ring
        rcases hW with hc | hc
        · omega
        · have : (2:Nat) ^ cl ≤ 2 ^ trailing_ones ci := Nat.pow_le_pow_right (by omega) hc
          omega
      have hstep := ih (PostfixSegmentTree.recalc_levels t ci cl (trailing_ones ci + 1 - cl))
        (ci + 2 ^ trailing_ones ci) (trailing_ones ci + 1)
        (by rw [L1]; omega)
        (by rw [L1]; exact hlen) (by rw [L2, L1]; exact hnlen)
        (by omega) (by omega) (by omega) hdiff'
        (Or.inr hto')
        (by
          intro j hj
          rw [L1] at hj
          exact L3 j hj)
        (by
          intro i' l' hi' hl1' hl' hanc
          rw [L1] at hi'
          exact L4 i' l' hi' hl1' hl' hanc)
        (by
          intro i' l' hi' hl1' hl' hanc hpos
          rw [L1] at hi'
          rcases Nat.lt_or_ge i' (ci + 1) with hle | hgt
          · apply L5 i' l' hi' hl1' hl' hanc
            rcases Nat.lt_or_ge i' ci with hc1 | hc1
            · exact Or.inl hc1
            · have : i' = ci := by omega
              subst this
              refine Or.inr ⟨rfl, ?_⟩
              rcases hW with hc | hc
              · subst hc
                omega
              · omega
          · exfalso
            -- the gap between the old and the new cursor holds no ancestors
            rcases hpos with hp | ⟨hp1', hp2⟩
            · -- ci < i' < ci + 2 ^ trailing_ones ci
              have hgap : 2 ^ trailing_ones (ci + (i' - ci)) ≤ i' - ci :=
                pow_trailing_ones_add_le (by omega) (by omega)
              have harg : ci + (i' - ci) = i' := by omega
              rw [harg] at hgap
              have hmono : (2:Nat) ^ l' ≤ 2 ^ trailing_ones i' :=
                Nat.pow_le_pow_right (by omega) hl'
              obtain ⟨ha1, ha2⟩ := hanc
              omega
            · -- i' = ci + 2 ^ trailing_ones ci with l' ≤ trailing_ones ci
              subst hp1'
              obtain ⟨ha1, ha2⟩ := hanc
              have hmono : (2:Nat) ^ l' ≤ 2 ^ trailing_ones ci :=
                Nat.pow_le_pow_right (by omega) (by omega)
              omega)
      obtain ⟨r1, r2⟩ := hstep
      rw [L1] at r2
      exact ⟨r1, r2⟩
    · rw [if_neg h]
      refine ⟨represents_of_all_clean hlen hnlen ?_, rfl⟩
      intro i l hi hl
      rcases Nat.eq_zero_or_pos l with hl0 | hl0
      · subst hl0
        exact hleaves i hi
      · by_cases hanc : IsAncestor idx i l
        · exact hdone i l hi hl0 hl hanc (Or.inl (by omega))
        · exact hnonanc i l hi hl0 hl hanc

/-- `recalculate_nodes_after_update` restores the invariant when every stale
internal slot is an ancestor of `id` and `id < len`. -/
theorem recalculate_nodes_after_update_spec {t : PostfixSegmentTree M} {es : List M}
    {id : Nat} (hid : id < t.len)
    (hlen : t.len = es.length) (hnlen : t.nodes.length = get_nodes_len_for t.len)
    (hleaves : ∀ j, j < t.len → CleanAt t es j 0)
    (hnonanc : ∀ i' l', i' < t.len → 1 ≤ l' → l' ≤ trailing_ones i' →
      ¬ IsAncestor id i' l' → CleanAt t es i' l') :
    Represents (PostfixSegmentTree.recalculate_nodes_after_update t id) es ∧
      (PostfixSegmentTree.recalculate_nodes_after_update t id).len = t.len := by
  apply recalc_upd_aux_spec id t.len t id 1 (by omega) hlen hnlen (by omega) (by omega)
    (by omega) (by omega) (Or.inl rfl) hleaves hnonanc
  intro i' l' hi' hl1' hl' hanc hpos
  exfalso
  obtain ⟨ha1, ha2⟩ := hanc
  rcases hpos with hp | ⟨hp1', hp2⟩
  · omega
  · omega

end UpdRecalc2

theorem take_set_of_le {α : Type} (l : List α) {j m : Nat} (v : α) (h : m ≤ j) :
    (l.set j v).take m = l.take m := by
  apply List.ext_getElem?
  intro n
  rw [List.getElem?_take, List.getElem?_take]
  by_cases hn : n < m
  · rw [if_pos hn, if_pos hn, List.getElem?_set_ne (by omega)]
  · rw [if_neg hn, if_neg hn]

theorem drop_set_of_lt {α : Type} (l : List α) {j a : Nat} (v : α) (h : j < a) :
    (l.set j v).drop a = l.drop a := by
  apply List.ext_getElem?
  intro n
  rw [List.getElem?_drop, List.getElem?_drop, List.getElem?_set_ne (by omega)]

section OpSpecs

variable {M : Type} [AddMonoid M]

/-- Writing a leaf outside a node's span leaves the node's clean value
unchanged. -/
theorem nodeVal_set_notmem {es : List M} {j i' l' : Nat} (v : M) (hw : 2 ^ l' ≤ i' + 1)
    (hout : i' < j ∨ j + 2 ^ l' ≤ i') :
    nodeVal (es.set j v) i' l' = nodeVal es i' l' := by
  rcases hout with hcase | hcase
  · exact nodeVal_eq_of_take_eq (Nat.lt_succ_self i') hw
      (take_set_of_le es v (by omega))
  · unfold nodeVal
    rw [drop_set_of_lt es v (by omega)]

theorem length_set_leaf_node (t : PostfixSegmentTree M) (i : Nat) (v : M) :
    (PostfixSegmentTree.set_leaf_node t i v).nodes.length = t.nodes.length := by
  simp [PostfixSegmentTree.set_leaf_node]

/-- `update` maps a clean tree for `es` to the clean tree for `es.set i v`. -/
theorem update_spec {t : PostfixSegmentTree M} {es : List M} (h : Represents t es)
    {i : Nat} (hi : i < t.len) (v : M) :
    Represents (PostfixSegmentTree.update t i v) (es.set i v) ∧
      (PostfixSegmentTree.update t i v).len = t.len := by
  have hnlen := h.nodes_length
  have hlen := h.1
  have hbound : node_index i 0 < t.nodes.length := by
    rw [hnlen]
    exact Nat.lt_of_lt_of_le (node_index_lt_of_level_le (Nat.zero_le _))
      (get_nodes_len_for_le (by omega))
  have hspec := recalculate_nodes_after_update_spec
    (t := PostfixSegmentTree.set_leaf_node t i v)
    (show i < (PostfixSegmentTree.set_leaf_node t i v).len by
      simpa [PostfixSegmentTree.set_leaf_node] using hi)
    (show (PostfixSegmentTree.set_leaf_node t i v).len = (es.set i v).length by
      simp [PostfixSegmentTree.set_leaf_node, hlen])
    (by simp [PostfixSegmentTree.set_leaf_node, hnlen])
    (by
      intro j hj
      simp only [PostfixSegmentTree.set_leaf_node] at hj ⊢
      unfold CleanAt
      simp only
      by_cases hji : j = i
      · subst hji
        rw [getD_set_self _ _ _ hbound,
          nodeVal_leaf (by rw [List.length_set]; omega),
          getD_set_self _ _ _ (by omega)]
      · rw [getD_set_ne _ _ _ (node_index_ne (Nat.zero_le _) (Nat.zero_le _) (by tauto)),
          nodeVal_leaf (by rw [List.length_set]; omega),
          getD_set_ne _ _ _ (by omega)]
        have hc := h.cleanAt (i := j) (l := 0) hj (Nat.zero_le _)
        unfold CleanAt at hc
        rw [hc, nodeVal_leaf (by omega)])
    (by
      intro i' l' hi' hl1' hl' hanc
      simp only [PostfixSegmentTree.set_leaf_node] at hi' ⊢
      unfold CleanAt
      simp only
      rw [getD_set_ne _ _ _ (node_index_ne (Nat.zero_le _) hl' (by omega))]
      have hc := h.cleanAt hi' hl'
      unfold CleanAt at hc
      rw [hc]
      unfold IsAncestor at hanc
      exact (nodeVal_set_notmem (j := i) v (pow_le_succ_of_le_trailing_ones hl')
        (by omega)).symm)
  obtain ⟨r1, r2⟩ := hspec
  simp only [PostfixSegmentTree.set_leaf_node] at r2
  exact ⟨r1, r2⟩

theorem push_default_dirty_nodes (t : PostfixSegmentTree M)
    (h : t.nodes.length = get_nodes_len_for t.len) :
    (PostfixSegmentTree.push_default_dirty t).nodes
      = t.nodes ++ List.replicate (get_nodes_len_for (t.len + 1) - t.nodes.length) 0 := by
  unfold PostfixSegmentTree.push_default_dirty PostfixSegmentTree.resize_with
  have hlt : t.nodes.length < get_nodes_len_for (t.len + 1) := by
    rw [h]
    exact get_nodes_len_for_lt (by omega)
  rw [if_neg (by omega)]

/-- `push` maps a clean tree for `es` to the clean tree for `es ++ [v]`. -/
theorem push_spec {t : PostfixSegmentTree M} {es : List M} (h : Represents t es) (v : M) :
    Represents (PostfixSegmentTree.push t v) (es ++ [v]) ∧
      (PostfixSegmentTree.push t v).len = t.len + 1 := by
  have hnlen := h.nodes_length
  have hlen := h.1
  have hlt : get_nodes_len_for t.len < get_nodes_len_for (t.len + 1) :=
    get_nodes_len_for_lt (by omega)
  have ht1nodes := push_default_dirty_nodes t hnlen
  have ht1len : (PostfixSegmentTree.push_default_dirty t).len = t.len + 1 := rfl
  have ht1nlen : (PostfixSegmentTree.push_default_dirty t).nodes.length
      = get_nodes_len_for (t.len + 1) := by
    rw [ht1nodes, List.length_append, List.length_replicate, hnlen]
    omega
  have hslot : node_index t.len 0 = t.nodes.length := by
    rw [hnlen]
    rfl
  have hold : ∀ s, s < t.nodes.length →
      (PostfixSegmentTree.set_leaf_node (PostfixSegmentTree.push_default_dirty t) t.len v
        ).nodes.getD s 0 = t.nodes.getD s 0 := by
    intro s hs
    simp only [PostfixSegmentTree.set_leaf_node]
    rw [ht1nodes, getD_set_ne _ _ _ (by omega), getD_append_left _ _ _ hs]
  have hsetbound : node_index t.len 0
      < (PostfixSegmentTree.push_default_dirty t).nodes.length := by
    rw [ht1nlen, hslot, hnlen]
    exact hlt
  have hnew : (PostfixSegmentTree.set_leaf_node (PostfixSegmentTree.push_default_dirty t)
      t.len v).nodes.getD (node_index t.len 0) 0 = v := by
    simp only [PostfixSegmentTree.set_leaf_node]
    exact getD_set_self _ _ _ hsetbound
  have happlast : (es ++ [v])[es.length]? = some v := by
    rw [List.getElem?_append_right le_rfl, Nat.sub_self]
    rfl
  have hspec := recalculate_nodes_after_update_spec
    (t := PostfixSegmentTree.set_leaf_node (PostfixSegmentTree.push_default_dirty t) t.len v)
    (show t.len < (PostfixSegmentTree.set_leaf_node
        (PostfixSegmentTree.push_default_dirty t) t.len v).len by
      simp [PostfixSegmentTree.set_leaf_node, PostfixSegmentTree.push_default_dirty])
    (show (PostfixSegmentTree.set_leaf_node
          (PostfixSegmentTree.push_default_dirty t) t.len v).len = (es ++ [v]).length by
      simp [PostfixSegmentTree.set_leaf_node, PostfixSegmentTree.push_default_dirty, hlen])
    (by
      rw [length_set_leaf_node, ht1nlen]
      simp [PostfixSegmentTree.set_leaf_node, PostfixSegmentTree.push_default_dirty])
    (by
      intro j hj
      simp only [PostfixSegmentTree.set_leaf_node, PostfixSegmentTree.push_default_dirty] at hj
      unfold CleanAt
      by_cases hji : j = t.len
      · subst hji
        rw [hnew, nodeVal_leaf (by rw [List.length_append]; simp; omega)]
        rw [getD_of_getElem? (by rw [hlen]; exact happlast)]
      · have hsl : node_index j 0 < t.nodes.length := by
          rw [hnlen]
          exact Nat.lt_of_lt_of_le (node_index_lt_of_level_le (Nat.zero_le _))
            (get_nodes_len_for_le (by omega))
        rw [hold _ hsl]
        have hc := h.cleanAt (i := j) (l := 0) (by omega) (Nat.zero_le _)
        unfold CleanAt at hc
        rw [hc, nodeVal_leaf (by omega), nodeVal_leaf (by rw [List.length_append]; simp; omega)]
        rw [getD_append_left _ _ _ (by omega)]
    )
    (by
      intro i' l' hi' hl1' hl' hanc
      simp only [PostfixSegmentTree.set_leaf_node, PostfixSegmentTree.push_default_dirty] at hi'
      have hi'lt : i' < t.len := by
        rcases Nat.lt_or_ge i' t.len with hc | hc
        · exact hc
        · exfalso
          have : i' = t.len := by omega
          subst this
          exact hanc ⟨le_rfl, by have := Nat.one_le_two_pow (n := l'); omega⟩
      unfold CleanAt
      have hsl : node_index i' l' < t.nodes.length := by
        rw [hnlen]
        exact Nat.lt_of_lt_of_le (node_index_lt_of_level_le hl')
          (get_nodes_len_for_le (by omega))
      rw [hold _ hsl]
      have hc := h.cleanAt hi'lt hl'
      unfold CleanAt at hc
      rw [hc]
      exact (nodeVal_eq_of_take_eq (by omega) (pow_le_succ_of_le_trailing_ones hl')
        (List.take_append_of_le_length le_rfl)).symm
    )
  obtain ⟨r1, r2⟩ := hspec
  constructor
  · exact r1
  · rw [PostfixSegmentTree.push]
    rw [r2]
    rfl

theorem buildAux_take (es : List M) : ∀ m n, n ≤ m →
    (buildAux es m).take (get_nodes_len_for n) = buildAux es n := by
  intro m
  induction m with
  | zero =>
    intro n hn
    have : n = 0 := by omega
    subst this
    rfl
  | succ k ih =>
    intro n hn
    rcases Nat.lt_or_ge n (k + 1) with h' | h'
    · show (buildAux es k ++ leafChain es k).take (get_nodes_len_for n) = _
      rw [List.take_append_of_le_length (by
        rw [length_buildAux]
        exact get_nodes_len_for_le (by omega))]
      exact ih n (by omega)
    · have : n = k + 1 := by omega
      subst this
      exact List.take_all_of_le (by rw [length_buildAux])

theorem truncate_spec {t : PostfixSegmentTree M} {es : List M} (h : Represents t es)
    (n : Nat) :
    Represents (PostfixSegmentTree.truncate t n) (es.take n) ∧
      (PostfixSegmentTree.truncate t n).len = min t.len n := by
  unfold PostfixSegmentTree.truncate
  by_cases hc : t.len ≤ n
  · rw [if_pos hc]
    have hlen0 := h.1
    rw [List.take_all_of_le (by omega : es.length ≤ n)]
    exact ⟨h, by omega⟩
  · rw [if_neg hc]
    have hlen : es.length = t.len := h.1.symm
    refine ⟨⟨?_, ?_⟩, by simp; omega⟩
    · simp only
      rw [List.length_take]
      omega
    · show t.nodes.take (get_nodes_len_for n) = buildNodes (es.take n)
      rw [h.2]
      unfold buildNodes
      rw [buildAux_take es es.length n (by omega)]
      have hlt : (es.take n).length = n := by
        rw [List.length_take]
        omega
      rw [hlt]
      exact (buildAux_eq_of_take_eq
        (show es.take n = (es.take n).take n by rw [List.take_take, Nat.min_self]) n le_rfl)

theorem swap_leaf_nodes_spec {t : PostfixSegmentTree M} {a b : Nat}
    (hnlen : t.nodes.length = get_nodes_len_for t.len) (ha : a < t.len) (hb : b < t.len) :
    (PostfixSegmentTree.swap_leaf_nodes t a b).len = t.len ∧
      (PostfixSegmentTree.swap_leaf_nodes t a b).nodes.length = t.nodes.length ∧
      (PostfixSegmentTree.swap_leaf_nodes t a b).nodes.getD (node_index a 0) 0
        = t.nodes.getD (node_index b 0) 0 ∧
      (PostfixSegmentTree.swap_leaf_nodes t a b).nodes.getD (node_index b 0) 0
        = t.nodes.getD (node_index a 0) 0 ∧
      (∀ j, j ≠ a → j ≠ b → (PostfixSegmentTree.swap_leaf_nodes t a b).nodes.getD
        (node_index j 0) 0 = t.nodes.getD (node_index j 0) 0) ∧
      (∀ i l, 1 ≤ l → l ≤ trailing_ones i → (PostfixSegmentTree.swap_leaf_nodes t a b
        ).nodes.getD (node_index i l) 0 = t.nodes.getD (node_index i l) 0) := by
  have hba : node_index a 0 < t.nodes.length := by
    rw [hnlen]
    exact Nat.lt_of_lt_of_le (node_index_lt_of_level_le (Nat.zero_le _))
      (get_nodes_len_for_le (by omega))
  have hbb : node_index b 0 < t.nodes.length := by
    rw [hnlen]
    exact Nat.lt_of_lt_of_le (node_index_lt_of_level_le (Nat.zero_le _))
      (get_nodes_len_for_le (by omega))
  unfold PostfixSegmentTree.swap_leaf_nodes
  refine ⟨rfl, by simp, ?_, ?_, ?_, ?_⟩
  · by_cases hab : a = b
    · subst hab
      exact getD_set_self _ _ _ (by simp [hba])
    · rw [getD_set_ne _ _ _ (node_index_ne (Nat.zero_le _) (Nat.zero_le _) (by tauto)),
        getD_set_self _ _ _ hba]
  · exact getD_set_self _ _ _ (by simp [hbb])
  · intro j hja hjb
    rw [getD_set_ne _ _ _ (node_index_ne (Nat.zero_le _) (Nat.zero_le _) (by tauto)),
      getD_set_ne _ _ _ (node_index_ne (Nat.zero_le _) (Nat.zero_le _) (by tauto))]
  · intro i l hl1 hl
    rw [getD_set_ne _ _ _ (node_index_ne (Nat.zero_le _) hl (by omega)),
      getD_set_ne _ _ _ (node_index_ne (Nat.zero_le _) hl (by omega))]

/-- Effect of the right-rotation swap loop on the leaves: leaf `index` ends
with the old last touched leaf's value and the block shifts right by one. -/
theorem rotate_right_aux_spec :
    ∀ s (t : PostfixSegmentTree M) (index : Nat),
      t.nodes.length = get_nodes_len_for t.len → index + s < t.len →
      (PostfixSegmentTree.rotate_right_aux t index s).len = t.len ∧
        (PostfixSegmentTree.rotate_right_aux t index s).nodes.length = t.nodes.length ∧
        (∀ j, j < index → (PostfixSegmentTree.rotate_right_aux t index s).nodes.getD
          (node_index j 0) 0 = t.nodes.getD (node_index j 0) 0) ∧
        ((PostfixSegmentTree.rotate_right_aux t index s).nodes.getD (node_index index 0) 0
          = t.nodes.getD (node_index (index + s) 0) 0) ∧
        (∀ j, index < j → j ≤ index + s → (PostfixSegmentTree.rotate_right_aux t index s
          ).nodes.getD (node_index j 0) 0 = t.nodes.getD (node_index (j - 1) 0) 0) ∧
        (∀ j, index + s < j → (PostfixSegmentTree.rotate_right_aux t index s).nodes.getD
          (node_index j 0) 0 = t.nodes.getD (node_index j 0) 0) ∧
        (∀ i l, 1 ≤ l → l ≤ trailing_ones i →
          (PostfixSegmentTree.rotate_right_aux t index s).nodes.getD (node_index i l) 0
            = t.nodes.getD (node_index i l) 0) := by
  intro s
  induction s with
  | zero =>
    intro t index hnlen hb
    exact ⟨rfl, rfl, fun j _ => rfl, rfl, fun j h1 h2 => by omega, fun j _ => rfl,
      fun i l _ _ => rfl⟩
  | succ s ih =>
    intro t index hnlen hb
    have hunfold : PostfixSegmentTree.rotate_right_aux t index (s+1)
        = PostfixSegmentTree.rotate_right_aux
            (PostfixSegmentTree.swap_leaf_nodes t (index + s) (index + s + 1)) index s := rfl
    rw [hunfold]
    obtain ⟨w1, w2, w3, w4, w5, w6⟩ := swap_leaf_nodes_spec (a := index + s)
      (b := index + s + 1) hnlen (by omega) (by omega)
    obtain ⟨r1, r2, r3, r4, r5, r6, r7⟩ := ih
      (PostfixSegmentTree.swap_leaf_nodes t (index + s) (index + s + 1)) index
      (by rw [w2, w1]; exact hnlen) (by rw [w1]; omega)
    rw [w1] at r1
    rw [w2] at r2
    refine ⟨r1, r2, ?_, ?_, ?_, ?_, ?_⟩
    · intro j hj
      rw [r3 j hj, w5 j (by omega) (by omega)]
    · rw [r4, w3]
      rfl
    · intro j hj1 hj2
      rcases Nat.lt_or_ge j (index + s + 1) with hc | hc
      · rw [r5 j hj1 (by omega), w5 (j - 1) (by omega) (by omega)]
      · have hj : j = index + s + 1 := by omega
        subst hj
        rw [r6 _ (by omega), w4]
        congr 2
    · intro j hj
      rw [r6 j (by omega), w5 j (by omega) (by omega)]
    · intro i l hl1 hl
      rw [r7 i l hl1 hl, w6 i l hl1 hl]

/-- Effect of the left-rotation swap loop on the leaves: the block shifts
left by one and the last touched leaf receives the old leaf `index`. -/
theorem rotate_left_aux_spec :
    ∀ s (t : PostfixSegmentTree M) (index : Nat),
      t.nodes.length = get_nodes_len_for t.len → index + s < t.len →
      (PostfixSegmentTree.rotate_left_aux t index s).len = t.len ∧
        (PostfixSegmentTree.rotate_left_aux t index s).nodes.length = t.nodes.length ∧
        (∀ j, j < index → (PostfixSegmentTree.rotate_left_aux t index s).nodes.getD
          (node_index j 0) 0 = t.nodes.getD (node_index j 0) 0) ∧
        (∀ j, index ≤ j → j < index + s → (PostfixSegmentTree.rotate_left_aux t index s
          ).nodes.getD (node_index j 0) 0 = t.nodes.getD (node_index (j + 1) 0) 0) ∧
        ((PostfixSegmentTree.rotate_left_aux t index s).nodes.getD
          (node_index (index + s) 0) 0 = t.nodes.getD (node_index index 0) 0) ∧
        (∀ j, index + s < j → (PostfixSegmentTree.rotate_left_aux t index s).nodes.getD
          (node_index j 0) 0 = t.nodes.getD (node_index j 0) 0) ∧
        (∀ i l, 1 ≤ l → l ≤ trailing_ones i →
          (PostfixSegmentTree.rotate_left_aux t index s).nodes.getD (node_index i l) 0
            = t.nodes.getD (node_index i l) 0) := by
  intro s
  induction s with
  | zero =>
    intro t index hnlen hb
    exact ⟨rfl, rfl, fun j _ => rfl, fun j h1 h2 => by omega, rfl, fun j _ => rfl,
      fun i l _ _ => rfl⟩
  | succ s ih =>
    intro t index hnlen hb
    have hunfold : PostfixSegmentTree.rotate_left_aux t index (s+1)
        = PostfixSegmentTree.rotate_left_aux
            (PostfixSegmentTree.swap_leaf_nodes t index (index + 1)) (index + 1) s := rfl
    rw [hunfold]
    obtain ⟨w1, w2, w3, w4, w5, w6⟩ := swap_leaf_nodes_spec (a := index)
      (b := index + 1) hnlen (by omega) (by omega)
    obtain ⟨r1, r2, r3, r4, r5, r6, r7⟩ := ih
      (PostfixSegmentTree.swap_leaf_nodes t index (index + 1)) (index + 1)
      (by rw [w2, w1]; exact hnlen) (by rw [w1]; omega)
    rw [w1] at r1
    rw [w2] at r2
    refine ⟨r1, r2, ?_, ?_, ?_, ?_, ?_⟩
    · intro j hj
      rw [r3 j (by omega), w5 j (by omega) (by omega)]
    · intro j hj1 hj2
      rcases Nat.lt_or_ge j (index + 1) with hc | hc
      · have hj : j = index := by omega
        subst hj
        rw [r3 j (by omega), w3]
      · rw [r4 j (by omega) (by omega), w5 (j + 1) (by omega) (by omega)]
    · rw [show index + (s + 1) = (index + 1) + s from by omega] at *
      rw [r5, w4]
    · intro j hj
      rw [r6 j (by omega), w5 j (by omega) (by omega)]
    · intro i l hl1 hl
      rw [r7 i l hl1 hl, w6 i l hl1 hl]

theorem pop_spec {t : PostfixSegmentTree M}
    (hnlen : t.nodes.length = get_nodes_len_for t.len) (hpos : 1 ≤ t.len) :
    (PostfixSegmentTree.pop t).1 = t.nodes.getD (node_index (t.len - 1) 0) 0 ∧
      (PostfixSegmentTree.pop t).2.len = t.len - 1 ∧
      (PostfixSegmentTree.pop t).2.nodes.length = get_nodes_len_for (t.len - 1) ∧
      (∀ s, s < get_nodes_len_for (t.len - 1) →
        (PostfixSegmentTree.pop t).2.nodes.getD s 0 = t.nodes.getD s 0) := by
  have hmono : get_nodes_len_for (t.len - 1) < get_nodes_len_for t.len := by
    have := get_nodes_len_for_lt (show t.len - 1 < t.len by omega)
    omega
  have hslot : node_index (t.len - 1) 0 = get_nodes_len_for (t.len - 1) := rfl
  unfold PostfixSegmentTree.pop PostfixSegmentTree.truncate
  simp only
  rw [if_neg (by simp; omega)]
  refine ⟨rfl, rfl, ?_, ?_⟩
  · simp only [List.length_take, List.length_set]
    omega
  · intro s hs
    rw [getD_take_of_lt _ _ hs, getD_set_ne _ _ _ (by omega)]

theorem getD_eq_getElem?_getD {α : Type} (l : List α) (n : Nat) (d : α) :
    l.getD n d = (l[n]?).getD d := by
  rw [List.getD, List.get?_eq_getElem?]

theorem insert_list_facts (es : List M) {i : Nat} (hi : i ≤ es.length) (v : M) :
    (es.take i ++ v :: es.drop i).length = es.length + 1 ∧
      (∀ j, j < i → (es.take i ++ v :: es.drop i).getD j 0 = es.getD j 0) ∧
      (es.take i ++ v :: es.drop i).getD i 0 = v ∧
      (∀ j, i < j → j ≤ es.length → (es.take i ++ v :: es.drop i).getD j 0
        = es.getD (j - 1) 0) ∧
      (es.take i ++ v :: es.drop i).take i = es.take i := by
  have hlt : (es.take i).length = i := by
    rw [List.length_take]
    omega
  refine ⟨?_, ?_, ?_, ?_, ?_⟩
  · simp
    omega
  · intro j hj
    rw [getD_append_left _ _ _ (by omega), getD_take_of_lt _ _ hj]
  · apply getD_of_getElem?
    rw [List.getElem?_append_right (by omega), hlt, Nat.sub_self]
    exact List.getElem?_cons_zero
  · intro j hj1 hj2
    rw [getD_eq_getElem?_getD, getD_eq_getElem?_getD]
    congr 1
    rw [List.getElem?_append_right (by omega), hlt]
    have hsub : j - i = (j - i - 1) + 1 := by omega
    rw [hsub, List.getElem?_cons_succ, List.getElem?_drop]
    congr 1
    omega
  · rw [List.take_append_of_le_length (by omega), List.take_take, Nat.min_self]

/-- `insert` maps a clean tree for `es` to the clean tree for the list with
`v` inserted at position `i`. -/
theorem insert_spec {t : PostfixSegmentTree M} {es : List M} (h : Represents t es)
    {i : Nat} (hi : i ≤ t.len) (v : M) :
    Represents (PostfixSegmentTree.insert t i v) (es.take i ++ v :: es.drop i) ∧
      (PostfixSegmentTree.insert t i v).len = t.len + 1 := by
  have hnlen := h.nodes_length
  have hlen := h.1
  obtain ⟨e1, e2, e3, e4, e5⟩ := insert_list_facts es (i := i) (by omega) v
  -- the push stage
  have ht1nodes := push_default_dirty_nodes t hnlen
  have ht2len : (PostfixSegmentTree.set_leaf_node (PostfixSegmentTree.push_default_dirty t)
      t.len v).len = t.len + 1 := rfl
  have ht2nlen : (PostfixSegmentTree.set_leaf_node (PostfixSegmentTree.push_default_dirty t)
      t.len v).nodes.length = get_nodes_len_for (t.len + 1) := by
    rw [length_set_leaf_node, ht1nodes, List.length_append, List.length_replicate, hnlen]
    have := get_nodes_len_for_lt (show t.len < t.len + 1 by omega)
    omega
  have hslot : node_index t.len 0 = t.nodes.length := by
    rw [hnlen]
    rfl
  have hold : ∀ s, s < t.nodes.length →
      (PostfixSegmentTree.set_leaf_node (PostfixSegmentTree.push_default_dirty t) t.len v
        ).nodes.getD s 0 = t.nodes.getD s 0 := by
    intro s hs
    simp only [PostfixSegmentTree.set_leaf_node]
    rw [ht1nodes, getD_set_ne _ _ _ (by omega), getD_append_left _ _ _ hs]
  have hnew : (PostfixSegmentTree.set_leaf_node (PostfixSegmentTree.push_default_dirty t)
      t.len v).nodes.getD (node_index t.len 0) 0 = v := by
    simp only [PostfixSegmentTree.set_leaf_node]
    apply getD_set_self
    rw [ht1nodes, List.length_append, List.length_replicate, hnlen, hslot, hnlen]
    have := get_nodes_len_for_lt (show t.len < t.len + 1 by omega)
    omega
  -- the rotation stage
  have hsarg : (PostfixSegmentTree.set_leaf_node (PostfixSegmentTree.push_default_dirty t)
      t.len v).len - i - 1 = t.len - i := by
    rw [ht2len]
    omega
  obtain ⟨r1, r2, r3, r4, r5, r6, r7⟩ := rotate_right_aux_spec (t.len - i)
    (PostfixSegmentTree.set_leaf_node (PostfixSegmentTree.push_default_dirty t) t.len v) i
    (by rw [ht2nlen, ht2len]) (by rw [ht2len]; omega)
  have hrot : PostfixSegmentTree.rotate_leaf_nodes_right_by_one_dirty
      (PostfixSegmentTree.set_leaf_node (PostfixSegmentTree.push_default_dirty t) t.len v) i
      = PostfixSegmentTree.rotate_right_aux
        (PostfixSegmentTree.set_leaf_node (PostfixSegmentTree.push_default_dirty t) t.len v)
        i (t.len - i) := by
    unfold PostfixSegmentTree.rotate_leaf_nodes_right_by_one_dirty
    rw [hsarg]
  have hia : i + (t.len - i) = t.len := by omega
  -- the bulk stage
  have hspec := recalculate_nodes_after_bulk_update_spec
    (t := PostfixSegmentTree.rotate_right_aux
      (PostfixSegmentTree.set_leaf_node (PostfixSegmentTree.push_default_dirty t) t.len v)
      i (t.len - i))
    (show i ≤ _ by rw [r1, ht2len]; omega)
    (show _ = (es.take i ++ v :: es.drop i).length by rw [r1, ht2len, e1, hlen])
    (by rw [r2, ht2nlen, r1, ht2len])
    (by
      intro j hj
      rw [r1, ht2len] at hj
      unfold CleanAt
      have hjlen : j < (es.take i ++ v :: es.drop i).length := by rw [e1]; omega
      rw [nodeVal_leaf hjlen]
      rcases Nat.lt_trichotomy j i with hc | hc | hc
      · rw [r3 j hc, hold _ (by
          rw [hnlen]
          exact Nat.lt_of_lt_of_le (node_index_lt_of_level_le (Nat.zero_le _))
            (get_nodes_len_for_le (by omega)))]
        have hcl := h.cleanAt (i := j) (l := 0) (by omega) (Nat.zero_le _)
        unfold CleanAt at hcl
        rw [hcl, nodeVal_leaf (by omega), e2 j hc]
      · subst hc
        rw [e3]
        have := r4
        rw [hia] at this
        rw [this, hnew]
      · rw [r5 j hc (by omega), e4 j hc (by omega)]
        rw [hold _ (by
          rw [hnlen]
          exact Nat.lt_of_lt_of_le (node_index_lt_of_level_le (Nat.zero_le _))
            (get_nodes_len_for_le (by omega)))]
        have hcl := h.cleanAt (i := j - 1) (l := 0) (by omega) (Nat.zero_le _)
        unfold CleanAt at hcl
        rw [hcl, nodeVal_leaf (by omega)])
    (by
      intro i' l' hi' hl1' hl'
      unfold CleanAt
      rw [r7 i' l' hl1' hl', hold _ (by
        rw [hnlen]
        exact Nat.lt_of_lt_of_le (node_index_lt_of_level_le hl')
          (get_nodes_len_for_le (by omega)))]
      have hcl := h.cleanAt (i := i') (l := l') (by omega) hl'
      unfold CleanAt at hcl
      rw [hcl]
      exact nodeVal_eq_of_take_eq (n := i) (by omega)
        (pow_le_succ_of_le_trailing_ones hl') e5.symm)
  obtain ⟨s1, s2⟩ := hspec
  rw [r1, ht2len] at s2
  unfold PostfixSegmentTree.insert
  rw [hrot]
  exact ⟨s1, s2⟩

theorem erase_list_facts (es : List M) {i : Nat} (hi : i < es.length) :
    (es.take i ++ es.drop (i + 1)).length = es.length - 1 ∧
      (∀ j, j < i → (es.take i ++ es.drop (i + 1)).getD j 0 = es.getD j 0) ∧
      (∀ j, i ≤ j → (es.take i ++ es.drop (i + 1)).getD j 0 = es.getD (j + 1) 0) ∧
      (es.take i ++ es.drop (i + 1)).take i = es.take i := by
  have hlt : (es.take i).length = i := by
    rw [List.length_take]
    omega
  refine ⟨?_, ?_, ?_, ?_⟩
  · simp
    omega
  · intro j hj
    rw [getD_append_left _ _ _ (by omega), getD_take_of_lt _ _ hj]
  · intro j hj
    rw [getD_eq_getElem?_getD, getD_eq_getElem?_getD]
    congr 1
    rw [List.getElem?_append_right (by omega), hlt, List.getElem?_drop]
    congr 1
    omega
  · rw [List.take_append_of_le_length (by omega), List.take_take, Nat.min_self]

/-- `remove` maps a clean tree for `es` to the clean tree for the list with
position `i` removed, and returns the removed element. -/
theorem remove_spec {t : PostfixSegmentTree M} {es : List M} (h : Represents t es)
    {i : Nat} (hi : i < t.len) :
    (PostfixSegmentTree.remove t i).1 = es.getD i 0 ∧
      Represents (PostfixSegmentTree.remove t i).2 (es.take i ++ es.drop (i + 1)) ∧
      (PostfixSegmentTree.remove t i).2.len = t.len - 1 := by
  have hnlen := h.nodes_length
  have hlen := h.1
  obtain ⟨e1, e2, e3, e4⟩ := erase_list_facts es (i := i) (by omega)
  have hrot : PostfixSegmentTree.rotate_leaf_nodes_left_by_one_dirty t i
      = PostfixSegmentTree.rotate_left_aux t i (t.len - 1 - i) := rfl
  obtain ⟨r1, r2, r3, r4, r5, r6, r7⟩ := rotate_left_aux_spec (t.len - 1 - i) t i
    hnlen (by omega)
  have hia : i + (t.len - 1 - i) = t.len - 1 := by omega
  rw [hia] at r5
  have ht1nlen : (PostfixSegmentTree.rotate_left_aux t i (t.len - 1 - i)).nodes.length
      = get_nodes_len_for (PostfixSegmentTree.rotate_left_aux t i (t.len - 1 - i)).len := by
    rw [r2, r1, hnlen]
  obtain ⟨p1, p2, p3, p4⟩ := pop_spec ht1nlen (by rw [r1]; omega)
  rw [r1] at p1 p2 p3 p4
  have hleafval : ∀ j, j < t.len → t.nodes.getD (node_index j 0) 0 = es.getD j 0 := by
    intro j hj
    have hcl := h.cleanAt (i := j) (l := 0) hj (Nat.zero_le _)
    unfold CleanAt at hcl
    rw [hcl, nodeVal_leaf (by omega)]
  have hpopval : (PostfixSegmentTree.pop
      (PostfixSegmentTree.rotate_left_aux t i (t.len - 1 - i))).1 = es.getD i 0 := by
    rw [p1, r5, hleafval i hi]
  have hslot_lt : ∀ j, j < t.len - 1 → node_index j 0 < get_nodes_len_for (t.len - 1) := by
    intro j hj
    exact Nat.lt_of_lt_of_le (node_index_lt_of_level_le (Nat.zero_le _))
      (get_nodes_len_for_le (by omega))
  have hspec := recalculate_nodes_after_bulk_update_spec
    (t := (PostfixSegmentTree.pop (PostfixSegmentTree.rotate_left_aux t i (t.len - 1 - i))).2)
    (show i ≤ _ by rw [p2]; omega)
    (show _ = (es.take i ++ es.drop (i + 1)).length by rw [p2, e1, hlen])
    (by rw [p3, p2])
    (by
      intro j hj
      rw [p2] at hj
      unfold CleanAt
      rw [p4 _ (hslot_lt j hj)]
      have hjlen : j < (es.take i ++ es.drop (i + 1)).length := by rw [e1]; omega
      rw [nodeVal_leaf hjlen]
      rcases Nat.lt_or_ge j i with hc | hc
      · rw [r3 j hc, hleafval j (by omega), e2 j hc]
      · rw [r4 j hc (by omega), hleafval (j + 1) (by omega), e3 j hc]
    )
    (by
      intro i' l' hi' hl1' hl'
      unfold CleanAt
      have hsl : node_index i' l' < get_nodes_len_for (t.len - 1) := by
        exact Nat.lt_of_lt_of_le (node_index_lt_of_level_le hl')
          (get_nodes_len_for_le (by omega))
      rw [p4 _ hsl, r7 i' l' hl1' hl']
      have hcl := h.cleanAt (i := i') (l := l') (by omega) hl'
      unfold CleanAt at hcl
      rw [hcl]
      exact nodeVal_eq_of_take_eq (n := i) (by omega)
        (pow_le_succ_of_le_trailing_ones hl') e4.symm)
  obtain ⟨s1, s2⟩ := hspec
  rw [p2] at s2
  unfold PostfixSegmentTree.remove
  rw [hrot]
  exact ⟨hpopval, s1, s2⟩

end OpSpecs

/-- Trees reachable from `new()` by the public mutating operations of the
crate (with their `assert!` preconditions): `push`, `update`, `insert`,
`remove`, `truncate`.  `from_iter` is a loop of `push`es and the capacity
operations do not touch `nodes`/`len`. -/
inductive Reachable {M : Type} [AddMonoid M] : PostfixSegmentTree M → Prop where
  | new : Reachable (PostfixSegmentTree.new M)
  | push (t : PostfixSegmentTree M) (v : M) :
      Reachable t → Reachable (PostfixSegmentTree.push t v)
  | update (t : PostfixSegmentTree M) (i : Nat) (v : M) :
      Reachable t → i < t.len → Reachable (PostfixSegmentTree.update t i v)
  | insert (t : PostfixSegmentTree M) (i : Nat) (v : M) :
      Reachable t → i ≤ t.len → Reachable (PostfixSegmentTree.insert t i v)
  | remove (t : PostfixSegmentTree M) (i : Nat) :
      Reachable t → i < t.len → Reachable (PostfixSegmentTree.remove t i).2
  | truncate (t : PostfixSegmentTree M) (n : Nat) :
      Reachable t → Reachable (PostfixSegmentTree.truncate t n)

section ReachSpec

variable {M : Type} [AddMonoid M]

theorem new_represents : Represents (PostfixSegmentTree.new M) ([] : List M) := ⟨rfl, rfl⟩

/-- Every reachable tree is the clean tree of some element list. -/
theorem reachable_represents {t : PostfixSegmentTree M} (h : Reachable t) :
    ∃ es : List M, Represents t es := by
  induction h with
  | new => exact ⟨[], new_represents⟩
  | push t v _ ih =>
    obtain ⟨es, hes⟩ := ih
    exact ⟨es ++ [v], (push_spec hes v).1⟩
  | update t i v _ hi ih =>
    obtain ⟨es, hes⟩ := ih
    exact ⟨es.set i v, (update_spec hes hi v).1⟩
  | insert t i v _ hi ih =>
    obtain ⟨es, hes⟩ := ih
    exact ⟨es.take i ++ v :: es.drop i, (insert_spec hes hi v).1⟩
  | remove t i _ hi ih =>
    obtain ⟨es, hes⟩ := ih
    exact ⟨es.take i ++ es.drop (i + 1), (remove_spec hes hi).2.1⟩
  | truncate t n _ ih =>
    obtain ⟨es, hes⟩ := ih
    exact ⟨es.take n, (truncate_spec hes n).1⟩

/-- `prefix_sum` on a clean tree totals the first `k` elements. -/
theorem prefix_sum_spec {t : PostfixSegmentTree M} {es : List M} (h : Represents t es)
    {k : Nat} (hk : k ≤ t.len) :
    PostfixSegmentTree.prefix_sum t k = (es.take k).sum := by
  have hlen := h.1
  unfold PostfixSegmentTree.prefix_sum
  rw [skip_list_foldl t es k
    (fun i l hi hl => h.get_node_eq (by omega) hl)
    (k - 0) 0 rfl (by omega) (fun _ => Dvd.intro 0 rfl) 0]
  rw [zero_add, List.drop_zero, Nat.sub_zero]

/-- `sum` on a clean tree totals the length-`c` segment at `index`. -/
theorem sum_spec {t : PostfixSegmentTree M} {es : List M} (h : Represents t es)
    {index c : Nat} (h1 : index ≤ t.len) (h2 : c ≤ t.len - index) :
    PostfixSegmentTree.sum t index c = ((es.drop index).take c).sum := by
  have hlen := h.1
  have hread : ∀ i l, i < index + c → l ≤ trailing_ones i →
      PostfixSegmentTree.get_node t i l = nodeVal es i l :=
    fun i l hi hl => h.get_node_eq (by omega) hl
  obtain ⟨hp1, hp2, hp3, hp4⟩ := get_pivot_spec index (index + c) (by omega)
  unfold PostfixSegmentTree.sum
  rw [increasing_skip_list_foldl t es (PostfixSegmentTree.get_pivot index (index + c))
    (fun i l hi hl => hread i l (by omega) hl)
    (PostfixSegmentTree.get_pivot index (index + c) - index) index rfl hp1 hp4 0]
  rw [skip_list_foldl t es (index + c) hread
    (index + c - PostfixSegmentTree.get_pivot index (index + c))
    (PostfixSegmentTree.get_pivot index (index + c)) rfl hp2 hp3 _]
  rw [zero_add]
  have hc : c = (PostfixSegmentTree.get_pivot index (index + c) - index)
      + (index + c - PostfixSegmentTree.get_pivot index (index + c)) := by omega
  have hp : index + (PostfixSegmentTree.get_pivot index (index + c) - index)
      = PostfixSegmentTree.get_pivot index (index + c) := by omega
  conv_rhs => rw [hc, seg_split, hp]
  rw [List.sum_append]

end ReachSpec

section QuerySpecs

variable {M : Type} [AddMonoid M]

/-- `get` on a clean tree is exactly the safe list lookup `es[i]?`. -/
theorem get_spec {t : PostfixSegmentTree M} {es : List M} (h : Represents t es) (i : Nat) :
    PostfixSegmentTree.get t i = es[i]? := by
  have hlen := h.1
  unfold PostfixSegmentTree.get
  by_cases hc : t.len ≤ i
  · rw [if_pos hc]
    exact (List.getElem?_eq_none (by omega)).symm
  · rw [if_neg hc]
    have hi : i < es.length := by omega
    have h1 : PostfixSegmentTree.get_leaf_node t i = nodeVal es i 0 :=
      h.get_node_eq hi (Nat.zero_le (trailing_ones i))
    rw [h1, nodeVal_leaf hi]
    exact (getElem?_eq_some_getD es 0 hi).symm

/-- `tree[i]` (the `Index` impl) on a clean tree: the element for `i < len`,
a buffer-index panic (modelled `none`) otherwise. -/
theorem index_get_spec {t : PostfixSegmentTree M} {es : List M} (h : Represents t es)
    (i : Nat) :
    PostfixSegmentTree.index_get t i
      = if i < t.len then PostfixSegmentTree.get t i else none := by
  have hlen := h.1
  have hnodes : t.nodes.length = get_nodes_len_for t.len := h.nodes_length
  unfold PostfixSegmentTree.index_get
  by_cases hc : i < t.len
  · rw [if_pos hc]
    have hb : node_index i 0 < t.nodes.length := by
      rw [hnodes]
      exact Nat.lt_of_lt_of_le (node_index_lt_of_level_le (Nat.zero_le (trailing_ones i)))
        (get_nodes_len_for_le hc)
    rw [getElem?_eq_some_getD t.nodes 0 hb]
    unfold PostfixSegmentTree.get
    rw [if_neg (by omega)]
    rfl
  · rw [if_neg hc]
    apply List.getElem?_eq_none
    rw [hnodes]
    have : get_nodes_len_for t.len ≤ get_nodes_len_for i := get_nodes_len_for_le (by omega)
    unfold node_index
    omega

/-- A tree determines, and is determined by, the list it represents. -/
theorem represents_unique {t t' : PostfixSegmentTree M} {es : List M}
    (h : Represents t es) (h' : Represents t' es) : t = t' := by
  obtain ⟨ns, l⟩ := t
  obtain ⟨ns', l'⟩ := t'
  have e1 : ns = ns' := h.2.trans h'.2.symm
  have e2 : l = l' := h.1.trans h'.1.symm
  rw [e1, e2]

/-- Accumulating `get 0 … get (k-1)` left-to-right from the identity totals
the first `k` elements. -/
theorem foldl_get_range {t : PostfixSegmentTree M} {es : List M} (h : Represents t es) :
    ∀ k, k ≤ t.len →
      List.foldl (fun s i => s + (PostfixSegmentTree.get t i).getD 0) 0 (List.range k)
        = (es.take k).sum := by
  intro k
  induction k with
  | zero => intro _; rfl
  | succ n ih =>
    intro hk
    rw [List.range_succ, List.foldl_append, ih (by omega)]
    simp only [List.foldl_cons, List.foldl_nil]
    have hn : n < es.length := by have := h.1; omega
    rw [get_spec h n, getElem?_eq_some_getD es 0 hn]
    have ht : es.take (n + 1) = es.take n ++ [es.getD n 0] := by
      rw [List.take_succ, getElem?_eq_some_getD es 0 hn]
      rfl
    rw [ht, List.sum_append, List.sum_cons, List.sum_nil, add_zero]
    rfl

end QuerySpecs

/-- C1: on every reachable tree and every `k ≤ len`, `prefix_sum k` equals the
left-to-right additive accumulation, starting from the identity value, of
`get 0, get 1, …, get (k-1)`. -/
theorem C1_prefix_sum_accumulates_gets {M : Type} [AddMonoid M]
    (t : PostfixSegmentTree M) (h : Reachable t) (k : Nat) (hk : k ≤ t.len) :
    PostfixSegmentTree.prefix_sum t k
      = List.foldl (fun s i => s + (PostfixSegmentTree.get t i).getD 0) 0 (List.range k) := by
  obtain ⟨es, hes⟩ := reachable_represents h
  rw [prefix_sum_spec hes hk, foldl_get_range hes k hk]

/-- Witness for C1: the tree `[1, 2]` over `ℤ` with `k = 2`. -/
theorem C1_prefix_sum_accumulates_gets_witness :
    2 ≤ (PostfixSegmentTree.push (PostfixSegmentTree.push (PostfixSegmentTree.new ℤ) 1) 2).len ∧
      PostfixSegmentTree.prefix_sum
          (PostfixSegmentTree.push (PostfixSegmentTree.push (PostfixSegmentTree.new ℤ) 1) 2) 2
        = List.foldl (fun s i => s + (PostfixSegmentTree.get
              (PostfixSegmentTree.push (PostfixSegmentTree.push (PostfixSegmentTree.new ℤ) 1) 2)
              i).getD 0) 0 (List.range 2) :=
  ⟨by decide,
    C1_prefix_sum_accumulates_gets _ (Reachable.push _ 2 (Reachable.push _ 1 Reachable.new))
      2 (by decide)⟩

/-- C2: on every reachable tree over a commutative group, for `index ≤ len`
and `count ≤ len - index`, `sum index count` equals
`prefix_sum (index + count) - prefix_sum index`. -/
theorem C2_sum_eq_prefix_sum_difference {M : Type} [AddCommGroup M]
    (t : PostfixSegmentTree M) (h : Reachable t) (index c : Nat)
    (h1 : index ≤ t.len) (h2 : c ≤ t.len - index) :
    PostfixSegmentTree.sum t index c
      = PostfixSegmentTree.prefix_sum t (index + c) - PostfixSegmentTree.prefix_sum t index := by
  obtain ⟨es, hes⟩ := reachable_represents h
  rw [sum_spec hes h1 h2, prefix_sum_spec hes (show index + c ≤ t.len by omega),
    prefix_sum_spec hes h1, List.take_add, List.sum_append]
  exact (add_sub_cancel_left _ _).symm

/-- Witness for C2: the tree `[1, 2, 3]` over `ℤ` with `index = 1`, `count = 2`. -/
theorem C2_sum_eq_prefix_sum_difference_witness :
    1 ≤ (PostfixSegmentTree.push (PostfixSegmentTree.push
        (PostfixSegmentTree.push (PostfixSegmentTree.new ℤ) 1) 2) 3).len ∧
      2 ≤ (PostfixSegmentTree.push (PostfixSegmentTree.push
        (PostfixSegmentTree.push (PostfixSegmentTree.new ℤ) 1) 2) 3).len - 1 ∧
      PostfixSegmentTree.sum (PostfixSegmentTree.push (PostfixSegmentTree.push
          (PostfixSegmentTree.push (PostfixSegmentTree.new ℤ) 1) 2) 3) 1 2
        = PostfixSegmentTree.prefix_sum (PostfixSegmentTree.push (PostfixSegmentTree.push
            (PostfixSegmentTree.push (PostfixSegmentTree.new ℤ) 1) 2) 3) 3
          - PostfixSegmentTree.prefix_sum (PostfixSegmentTree.push (PostfixSegmentTree.push
            (PostfixSegmentTree.push (PostfixSegmentTree.new ℤ) 1) 2) 3) 1 :=
  ⟨by decide, by decide,
    C2_sum_eq_prefix_sum_difference _
      (Reachable.push _ 3 (Reachable.push _ 2 (Reachable.push _ 1 Reachable.new)))
      1 2 (by decide) (by decide)⟩

/-- C4: every reachable tree keeps `nodes.length = f(len)` with
`f(n) = 2n - popcount n`; `push` grows the buffer by exactly
`f(len+1) - f(len)` slots and `truncate n` shrinks it to `f(min len n)`. -/
theorem C4_nodes_len_invariant {M : Type} [AddMonoid M]
    (t : PostfixSegmentTree M) (h : Reachable t) :
    t.nodes.length = get_nodes_len_for t.len ∧
      (∀ v : M, (PostfixSegmentTree.push t v).nodes.length
        = t.nodes.length + (get_nodes_len_for (t.len + 1) - get_nodes_len_for t.len)) ∧
      (∀ n : Nat, (PostfixSegmentTree.truncate t n).nodes.length
        = get_nodes_len_for (min t.len n)) := by
  obtain ⟨es, hes⟩ := reachable_represents h
  have hbase : t.nodes.length = get_nodes_len_for t.len := hes.nodes_length
  refine ⟨hbase, ?_, ?_⟩
  · intro v
    have hp := (push_spec hes v).1
    have hl := (push_spec hes v).2
    have h1 : (PostfixSegmentTree.push t v).nodes.length
        = get_nodes_len_for (PostfixSegmentTree.push t v).len := hp.nodes_length
    have hmono : get_nodes_len_for t.len ≤ get_nodes_len_for (t.len + 1) :=
      get_nodes_len_for_le (by omega)
    rw [h1, hl, hbase]
    omega
  · intro n
    have ht := (truncate_spec hes n).1
    have hl := (truncate_spec hes n).2
    have h1 : (PostfixSegmentTree.truncate t n).nodes.length
        = get_nodes_len_for (PostfixSegmentTree.truncate t n).len := ht.nodes_length
    rw [h1, hl]

/-- Witness for C4: the tree `[1]` over `ℤ`, pushing `5` and truncating to `0`. -/
theorem C4_nodes_len_invariant_witness :
    (PostfixSegmentTree.push (PostfixSegmentTree.new ℤ) 1).nodes.length
        = get_nodes_len_for (PostfixSegmentTree.push (PostfixSegmentTree.new ℤ) 1).len ∧
      (PostfixSegmentTree.push (PostfixSegmentTree.push (PostfixSegmentTree.new ℤ) 1) 5).nodes.length
        = (PostfixSegmentTree.push (PostfixSegmentTree.new ℤ) 1).nodes.length
          + (get_nodes_len_for ((PostfixSegmentTree.push (PostfixSegmentTree.new ℤ) 1).len + 1)
            - get_nodes_len_for (PostfixSegmentTree.push (PostfixSegmentTree.new ℤ) 1).len) ∧
      (PostfixSegmentTree.truncate (PostfixSegmentTree.push (PostfixSegmentTree.new ℤ) 1) 0).nodes.length
        = get_nodes_len_for (min (PostfixSegmentTree.push (PostfixSegmentTree.new ℤ) 1).len 0) :=
  ⟨(C4_nodes_len_invariant _ (Reachable.push _ 1 Reachable.new)).1,
    (C4_nodes_len_invariant _ (Reachable.push _ 1 Reachable.new)).2.1 5,
    (C4_nodes_len_invariant _ (Reachable.push _ 1 Reachable.new)).2.2 0⟩

/-- Inserting `v` at `i ≤ |es|` and then erasing position `i` restores `es`. -/
theorem insert_erase_list {M : Type} [AddMonoid M] (es : List M) (i : Nat) (v : M)
    (hi : i ≤ es.length) :
    (es.take i ++ v :: es.drop i).take i ++ (es.take i ++ v :: es.drop i).drop (i + 1)
      = es := by
  have hlt : (es.take i).length = i := by
    rw [List.length_take]
    omega
  rw [List.take_append_eq_append_take, List.drop_append_eq_append_drop, hlt]
  rw [Nat.sub_self, List.take_zero, List.append_nil, List.take_take, Nat.min_self]
  have h2 : i + 1 - i = 1 := by omega
  rw [List.drop_eq_nil_of_le (by omega), h2, List.nil_append, List.drop_one]
  rw [List.tail_cons, List.take_append_drop]

/-- C6: inserting `v` at `i` and then removing position `i` restores the
original tree: same length, same `get` at every position, same `prefix_sum`
at every `k ≤ len`. -/
theorem C6_insert_remove_roundtrip {M : Type} [AddMonoid M]
    (t : PostfixSegmentTree M) (h : Reachable t) (i : Nat) (hi : i ≤ t.len) (v : M) :
    (PostfixSegmentTree.remove (PostfixSegmentTree.insert t i v) i).2.len = t.len ∧
      (∀ j, PostfixSegmentTree.get
          (PostfixSegmentTree.remove (PostfixSegmentTree.insert t i v) i).2 j
        = PostfixSegmentTree.get t j) ∧
      (∀ k, k ≤ t.len → PostfixSegmentTree.prefix_sum
          (PostfixSegmentTree.remove (PostfixSegmentTree.insert t i v) i).2 k
        = PostfixSegmentTree.prefix_sum t k) := by
  obtain ⟨es, hes⟩ := reachable_represents h
  have h1 := (insert_spec hes hi v).1
  have hl1 := (insert_spec hes hi v).2
  have hi2 : i < (PostfixSegmentTree.insert t i v).len := by omega
  have h2 := (remove_spec h1 hi2).2.1
  have hlist : (es.take i ++ v :: es.drop i).take i
      ++ (es.take i ++ v :: es.drop i).drop (i + 1) = es :=
    insert_erase_list es i v (by have := hes.1; omega)
  rw [hlist] at h2
  have heq : (PostfixSegmentTree.remove (PostfixSegmentTree.insert t i v) i).2 = t :=
    represents_unique h2 hes
  rw [heq]
  exact ⟨rfl, fun j => rfl, fun k _ => rfl⟩

/-- Witness for C6: the tree `[3]` over `ℤ`, inserting `9` at `0` and removing it. -/
theorem C6_insert_remove_roundtrip_witness :
    0 ≤ (PostfixSegmentTree.push (PostfixSegmentTree.new ℤ) 3).len ∧
      (PostfixSegmentTree.remove (PostfixSegmentTree.insert
          (PostfixSegmentTree.push (PostfixSegmentTree.new ℤ) 3) 0 9) 0).2.len
        = (PostfixSegmentTree.push (PostfixSegmentTree.new ℤ) 3).len ∧
      PostfixSegmentTree.get (PostfixSegmentTree.remove (PostfixSegmentTree.insert
          (PostfixSegmentTree.push (PostfixSegmentTree.new ℤ) 3) 0 9) 0).2 0
        = PostfixSegmentTree.get (PostfixSegmentTree.push (PostfixSegmentTree.new ℤ) 3) 0 ∧
      PostfixSegmentTree.prefix_sum (PostfixSegmentTree.remove (PostfixSegmentTree.insert
          (PostfixSegmentTree.push (PostfixSegmentTree.new ℤ) 3) 0 9) 0).2 1
        = PostfixSegmentTree.prefix_sum (PostfixSegmentTree.push (PostfixSegmentTree.new ℤ) 3) 1 := by
  have h := C6_insert_remove_roundtrip (PostfixSegmentTree.push (PostfixSegmentTree.new ℤ) 3)
    (Reachable.push _ 3 Reachable.new) 0 (by decide) 9
  exact ⟨by decide, h.1, h.2.1 0, h.2.2 1 (by decide)⟩

/-- C7: `node_index (i, l) = f(i) + l` is injective over valid pairs
(`l ≤ max_level i`), and the slot is independent of the tree's length:
pushing another element never changes the stored value of any node that
already existed (its slot, and the value there, are preserved). -/
theorem C7_node_index_injective_and_stable {M : Type} [AddMonoid M] :
    (∀ i₁ l₁ i₂ l₂ : Nat, l₁ ≤ get_max_level_from_index i₁ →
      l₂ ≤ get_max_level_from_index i₂ →
      node_index i₁ l₁ = node_index i₂ l₂ → i₁ = i₂ ∧ l₁ = l₂) ∧
    ∀ t : PostfixSegmentTree M, Reachable t → ∀ (v : M) (i l : Nat), i < t.len →
      l ≤ get_max_level_from_index i →
      PostfixSegmentTree.get_node (PostfixSegmentTree.push t v) i l
        = PostfixSegmentTree.get_node t i l := by
  constructor
  · intro i₁ l₁ i₂ l₂ h₁ h₂ h
    exact node_index_inj_aux h₁ h₂ h
  · intro t h v i l hi hl
    obtain ⟨es, hes⟩ := reachable_represents h
    have hp := (push_spec hes v).1
    have hi' : i < es.length := by have := hes.1; omega
    have h1 : PostfixSegmentTree.get_node (PostfixSegmentTree.push t v) i l
        = nodeVal (es ++ [v]) i l := hp.get_node_eq (by rw [List.length_append]; omega) hl
    have h2 : PostfixSegmentTree.get_node t i l = nodeVal es i l := hes.get_node_eq hi' hl
    rw [h1, h2]
    exact nodeVal_eq_of_take_eq hi' (pow_le_succ_of_le_trailing_ones hl)
      (by rw [List.take_append_eq_append_take, Nat.sub_self, List.take_zero,
        List.append_nil, List.take_length])

/-- Witness for C7 over `ℤ`: injectivity at the pair `(2, 1)` against `(2, 1)`,
and slot stability of leaf `0` when pushing `2` onto the tree `[1]`. -/
theorem C7_node_index_injective_and_stable_witness :
    1 ≤ get_max_level_from_index 1 ∧
      (node_index 1 1 = node_index 1 1 → 1 = 1 ∧ 1 = 1) ∧
      0 < (PostfixSegmentTree.push (PostfixSegmentTree.new ℤ) 1).len ∧
      PostfixSegmentTree.get_node
          (PostfixSegmentTree.push (PostfixSegmentTree.push (PostfixSegmentTree.new ℤ) 1) 2) 0 0
        = PostfixSegmentTree.get_node (PostfixSegmentTree.push (PostfixSegmentTree.new ℤ) 1) 0 0 :=
  ⟨by decide,
    fun h => (C7_node_index_injective_and_stable (M := ℤ)).1 1 1 1 1 (by decide) (by decide) h,
    by decide,
    (C7_node_index_injective_and_stable (M := ℤ)).2 _ (Reachable.push _ 1 Reachable.new)
      2 0 0 (by decide) (by decide)⟩

/-- C8: on every reachable tree, `get index` is absent exactly when
`index ≥ len` and otherwise returns the element at `index`
(`es[index]?` for the represented list — a safe query, no failure), while
the `Index` access `tree[index]` agrees with `get` for `index < len` but is
a buffer-index panic (modelled `none`) for `index ≥ len`. -/
theorem C8_get_safe_index_fatal {M : Type} [AddMonoid M]
    (t : PostfixSegmentTree M) (h : Reachable t) (index : Nat) :
    (∀ es : List M, Represents t es → PostfixSegmentTree.get t index = es[index]?) ∧
      (PostfixSegmentTree.get t index = none ↔ t.len ≤ index) ∧
      (index < t.len →
        PostfixSegmentTree.index_get t index = PostfixSegmentTree.get t index ∧
          (PostfixSegmentTree.get t index).isSome = true) ∧
      (t.len ≤ index → PostfixSegmentTree.index_get t index = none) := by
  obtain ⟨es, hes⟩ := reachable_represents h
  refine ⟨fun es' hes' => get_spec hes' index, ?_, ?_, ?_⟩
  · unfold PostfixSegmentTree.get
    by_cases hc : t.len ≤ index
    · rw [if_pos hc]
      exact ⟨fun _ => hc, fun _ => rfl⟩
    · rw [if_neg hc]
      exact ⟨fun hx => absurd hx (Option.some_ne_none _), fun hx => absurd hx hc⟩
  · intro hlt
    constructor
    · rw [index_get_spec hes index, if_pos hlt]
    · unfold PostfixSegmentTree.get
      rw [if_neg (by omega)]
      rfl
  · intro hge
    rw [index_get_spec hes index, if_neg (by omega)]

/-- Witness for C8: the tree `[7]` over `ℤ` at `index = 0` (in range) and the
panic branch at `index = 1` (out of range). -/
theorem C8_get_safe_index_fatal_witness :
    PostfixSegmentTree.get (PostfixSegmentTree.push (PostfixSegmentTree.new ℤ) 7) 0
        = [(7 : ℤ)][0]? ∧
      (0 < (PostfixSegmentTree.push (PostfixSegmentTree.new ℤ) 7).len ∧
        PostfixSegmentTree.index_get (PostfixSegmentTree.push (PostfixSegmentTree.new ℤ) 7) 0
          = PostfixSegmentTree.get (PostfixSegmentTree.push (PostfixSegmentTree.new ℤ) 7) 0) ∧
      ((PostfixSegmentTree.push (PostfixSegmentTree.new ℤ) 7).len ≤ 1 ∧
        PostfixSegmentTree.index_get (PostfixSegmentTree.push (PostfixSegmentTree.new ℤ) 7) 1
          = none) := by
  have h0 := C8_get_safe_index_fatal (PostfixSegmentTree.push (PostfixSegmentTree.new ℤ) 7)
    (Reachable.push _ 7 Reachable.new) 0
  have h1 := C8_get_safe_index_fatal (PostfixSegmentTree.push (PostfixSegmentTree.new ℤ) 7)
    (Reachable.push _ 7 Reachable.new) 1
  exact ⟨h0.1 [(7 : ℤ)] ⟨by decide, by decide⟩,
    ⟨by decide, (h0.2.2.1 (by decide)).1⟩,
    ⟨by decide, h1.2.2.2 (by decide)⟩⟩

namespace PostfixSegmentTree

variable {M : Type} [AddMonoid M]

/-- `ElementIterator::next` (`iterator.rs`): the yielded element, if any, and
the updated `(index, end)` cursor pair.  Faithful to the source, including
its `if self.index + 1 >= self.end` entry test. -/
def iter_next (t : PostfixSegmentTree M) (index endIdx : Nat) : Option M × Nat × Nat :=
  if endIdx ≤ index + 1 then (none, index, endIdx)
  else (PostfixSegmentTree.get t index,
    (if index < endIdx then index + 1 else index), endIdx)

/-- `ElementIterator::next_back` (`iterator.rs`). -/
def iter_next_back (t : PostfixSegmentTree M) (index endIdx : Nat) : Option M × Nat × Nat :=
  if endIdx ≤ index then (none, index, endIdx)
  else (PostfixSegmentTree.get t (endIdx - 1), index,
    (if index + 1 ≤ endIdx then endIdx - 1 else endIdx))

/-- Draining the iterator front-to-back (`for`-loop consumption of `next`),
with fuel bounding the number of steps. -/
def iter_collect (t : PostfixSegmentTree M) : Nat → Nat → Nat → List M
  | 0, _, _ => []
  | fuel + 1, index, endIdx =>
    match iter_next t index endIdx with
    | (none, _, _) => []
    | (some v, i', e') => v :: iter_collect t fuel i' e'

/-- Draining the iterator back-to-front (repeated `next_back`). -/
def iter_collect_back (t : PostfixSegmentTree M) : Nat → Nat → Nat → List M
  | 0, _, _ => []
  | fuel + 1, index, endIdx =>
    match iter_next_back t index endIdx with
    | (none, _, _) => []
    | (some v, i', e') => v :: iter_collect_back t fuel i' e'

end PostfixSegmentTree

/-- C5: refuted.  Pushing the single element `1` and consuming
`iter()` (cursors `index = 0`, `end = len`) front-to-back yields `[]`, not
`[1]`: `ElementIterator::next` bails out as soon as `index + 1 ≥ end`, so the
final element is never yielded.  Consuming back-to-front does yield `[1]`. -/
theorem C5_iterator_forward_drops_last :
    (PostfixSegmentTree.push (PostfixSegmentTree.new ℤ) 1).len = 1 ∧
      PostfixSegmentTree.iter_collect (PostfixSegmentTree.push (PostfixSegmentTree.new ℤ) 1)
          (PostfixSegmentTree.push (PostfixSegmentTree.new ℤ) 1).len 0
          (PostfixSegmentTree.push (PostfixSegmentTree.new ℤ) 1).len = ([] : List ℤ) ∧
      PostfixSegmentTree.iter_collect_back (PostfixSegmentTree.push (PostfixSegmentTree.new ℤ) 1)
          (PostfixSegmentTree.push (PostfixSegmentTree.new ℤ) 1).len 0
          (PostfixSegmentTree.push (PostfixSegmentTree.new ℤ) 1).len = [(1 : ℤ)] :=
  ⟨by decide, by decide, by decide⟩

/-- A tree together with its backing `Vec` capacity (`nodes.capacity()`).
The element buffer itself is the `tree` component; capacity-management
operations may only touch `cap`. -/
structure CapTree (M : Type) where
  tree : PostfixSegmentTree M
  cap : Nat

/-- `Vec::reserve`: capacity becomes at least `len + additional` (modelled by
the least compliant value). -/
def vec_reserve (len cap additional : Nat) : Nat := max cap (len + additional)

/-- `Vec::shrink_to`: capacity shrinks toward the lower bound, never below
the length. -/
def vec_shrink_to (len cap min_cap : Nat) : Nat := max len (min cap min_cap)

namespace CapTree

variable {M : Type} [AddMonoid M]

/-- `reserve_nodes`: `self.nodes.reserve(additional)`. -/
def reserve_nodes (c : CapTree M) (additional : Nat) : CapTree M :=
  ⟨c.tree, vec_reserve c.tree.nodes.length c.cap additional⟩

/-- `reserve` (`lib.rs`): compute the node capacity needed for
`len + additional` elements and reserve the shortfall. -/
def reserve (c : CapTree M) (additional : Nat) : CapTree M :=
  let new_capacity := c.tree.len + additional
  let new_nodes_capacity := get_nodes_len_for new_capacity
  let nodes_len := c.tree.nodes.length
  if nodes_len < new_nodes_capacity then reserve_nodes c (new_nodes_capacity - nodes_len)
  else c

/-- `reserve_nodes_exact`: `self.nodes.reserve_exact(additional)` (modelled
the same way as `reserve`, whose contract it tightens). -/
def reserve_nodes_exact (c : CapTree M) (additional : Nat) : CapTree M :=
  ⟨c.tree, vec_reserve c.tree.nodes.length c.cap additional⟩

/-- `reserve_exact` (`lib.rs`). -/
def reserve_exact (c : CapTree M) (additional : Nat) : CapTree M :=
  let new_capacity := c.tree.len + additional
  let new_nodes_capacity := get_nodes_len_for new_capacity
  let nodes_len := c.tree.nodes.length
  if nodes_len < new_nodes_capacity then reserve_nodes_exact c (new_nodes_capacity - nodes_len)
  else c

/-- `shrink_to_fit`: `self.nodes.shrink_to_fit()`. -/
def shrink_to_fit (c : CapTree M) : CapTree M :=
  ⟨c.tree, c.tree.nodes.length⟩

/-- `shrink_nodes_to`: `self.nodes.shrink_to(min_nodes_capacity)`. -/
def shrink_nodes_to (c : CapTree M) (min_nodes_capacity : Nat) : CapTree M :=
  ⟨c.tree, vec_shrink_to c.tree.nodes.length c.cap min_nodes_capacity⟩

/-- `shrink_to` (`lib.rs`). -/
def shrink_to (c : CapTree M) (min_capacity : Nat) : CapTree M :=
  shrink_nodes_to c (get_nodes_len_for min_capacity)

end CapTree

/-- C9: every capacity-management operation (`reserve`, `reserve_exact`,
`reserve_nodes`, `reserve_nodes_exact`, `shrink_to_fit`, `shrink_nodes_to`,
`shrink_to`) leaves the tree component — `len` and every stored node —
untouched, so all results of `get` and `prefix_sum` are identical to before;
only the backing capacity changes. -/
theorem C9_capacity_ops_frame {M : Type} [AddMonoid M]
    (c : CapTree M) (h : Reachable c.tree) (additional min_cap j k : Nat)
    (ha : c.tree.len + additional ≤ MAX_LEN) (hm : min_cap ≤ MAX_LEN) :
    (CapTree.reserve c additional).tree = c.tree ∧
      (CapTree.reserve_exact c additional).tree = c.tree ∧
      (CapTree.reserve_nodes c additional).tree = c.tree ∧
      (CapTree.reserve_nodes_exact c additional).tree = c.tree ∧
      (CapTree.shrink_to_fit c).tree = c.tree ∧
      (CapTree.shrink_nodes_to c min_cap).tree = c.tree ∧
      (CapTree.shrink_to c min_cap).tree = c.tree ∧
      (CapTree.reserve c additional).tree.len = c.tree.len ∧
      PostfixSegmentTree.get (CapTree.reserve c additional).tree j
        = PostfixSegmentTree.get c.tree j ∧
      PostfixSegmentTree.prefix_sum (CapTree.shrink_to c min_cap).tree k
        = PostfixSegmentTree.prefix_sum c.tree k := by
  have hr : (CapTree.reserve c additional).tree = c.tree := by
    unfold CapTree.reserve
    by_cases hc : c.tree.nodes.length
        < get_nodes_len_for (c.tree.len + additional)
    · simp only [if_pos hc]
      rfl
    · simp only [if_neg hc]
  have hre : (CapTree.reserve_exact c additional).tree = c.tree := by
    unfold CapTree.reserve_exact
    by_cases hc : c.tree.nodes.length
        < get_nodes_len_for (c.tree.len + additional)
    · simp only [if_pos hc]
      rfl
    · simp only [if_neg hc]
  refine ⟨hr, hre, rfl, rfl, rfl, rfl, rfl, ?_, ?_, rfl⟩
  · rw [hr]
  · rw [hr]

/-- Witness for C9: the tree `[1]` over `ℤ` with capacity `3`,
`additional = 2`, `min_cap = 0`. -/
theorem C9_capacity_ops_frame_witness :
    (CapTree.mk (PostfixSegmentTree.push (PostfixSegmentTree.new ℤ) 1) 3).tree.len + 2
        ≤ MAX_LEN ∧
      (CapTree.reserve (CapTree.mk (PostfixSegmentTree.push (PostfixSegmentTree.new ℤ) 1) 3)
          2).tree
        = (CapTree.mk (PostfixSegmentTree.push (PostfixSegmentTree.new ℤ) 1) 3).tree ∧
      (CapTree.shrink_to_fit
          (CapTree.mk (PostfixSegmentTree.push (PostfixSegmentTree.new ℤ) 1) 3)).tree
        = (CapTree.mk (PostfixSegmentTree.push (PostfixSegmentTree.new ℤ) 1) 3).tree ∧
      PostfixSegmentTree.get
          (CapTree.reserve (CapTree.mk (PostfixSegmentTree.push (PostfixSegmentTree.new ℤ) 1) 3)
            2).tree 0
        = PostfixSegmentTree.get
            (CapTree.mk (PostfixSegmentTree.push (PostfixSegmentTree.new ℤ) 1) 3).tree 0 := by
  have h := C9_capacity_ops_frame
    (CapTree.mk (PostfixSegmentTree.push (PostfixSegmentTree.new ℤ) 1) 3)
    (Reachable.push _ 1 Reachable.new) 2 0 0 1 (by decide) (by decide)
  exact ⟨by decide, h.1, h.2.2.2.2.1, h.2.2.2.2.2.2.2.2.1⟩

/-- The `debug_assert!(id.index() < self.len())` at the entry of
`recalculate_nodes_after_bulk_update`, as evaluated during
`remove(index)`: by the time that call is reached, the tree has already been
left-rotated at `index` and had its tail leaf popped (which decrements
`len`). -/
def remove_bulk_update_entry_assert {M : Type} [AddMonoid M]
    (t : PostfixSegmentTree M) (index : Nat) : Prop :=
  index < (PostfixSegmentTree.pop
    (PostfixSegmentTree.rotate_leaf_nodes_left_by_one_dirty t index)).2.len

/-- C10: refuted.  For the reachable one-element tree `[1]` and the valid
call `remove 0` (`0 < len`), the debug assertion
`id.index() < self.len()` at the entry of
`recalculate_nodes_after_bulk_update` is evaluated and fails: `pop` has
already decremented `len` to `0`, so `0 < 0` is false. -/
theorem C10_remove_debug_assert_fails :
    0 < (PostfixSegmentTree.push (PostfixSegmentTree.new ℤ) 1).len ∧
      ¬ remove_bulk_update_entry_assert
          (PostfixSegmentTree.push (PostfixSegmentTree.new ℤ) 1) 0 := by
  constructor
  · decide
  · unfold remove_bulk_update_entry_assert
    decide
